/-
  Verification development for the ol-calendar repository.

  Shallow embedding of the three source files:
    - orgnode.py  : OrgClock / OrgNode / OrgFile data model, rendering and
                    (through the outline-text library, modelled from the spec)
                    parsing of outline files;
    - main.py     : appointment filtering/transformation and the heading-based
                    sync/merge engine;
    - graph.py    : the calendar-service HTTP request construction.

  Python strings are modelled as Lean `String` (a list of characters),
  Python `datetime` values (all localized to the single fixed timezone) as a
  record of calendar components compared lexicographically, Python dicts with
  string keys as insertion-ordered association lists, and raising code as
  `Except Unit` / `Option` results.
-/
import Mathlib

namespace OlCal

/-! ## Date-time values

All timestamps flowing through the program are timezone-aware Python
datetimes in the single fixed local timezone (`Asia/Kolkata`), so comparison
is lexicographic on the calendar components. -/

structure DateTime where
  year : Nat
  month : Nat
  day : Nat
  hour : Nat
  minute : Nat
  second : Nat
deriving DecidableEq, Repr

/-- Python `<` on two aware datetimes in the same timezone. -/
def dtLt (a b : DateTime) : Bool :=
  if a.year ≠ b.year then decide (a.year < b.year)
  else if a.month ≠ b.month then decide (a.month < b.month)
  else if a.day ≠ b.day then decide (a.day < b.day)
  else if a.hour ≠ b.hour then decide (a.hour < b.hour)
  else if a.minute ≠ b.minute then decide (a.minute < b.minute)
  else decide (a.second < b.second)

/-- Days since the civil epoch 1970-01-01 (standard civil-calendar formula);
used only to compute clock durations, mirroring `timedelta` subtraction. -/
def daysFromCivil (y m d : Nat) : Int :=
  let y' : Int := (y : Int) - (if m ≤ 2 then 1 else 0)
  let era : Int := Int.fdiv y' 400
  let yoe : Int := y' - era * 400
  let mp : Int := Int.emod ((m : Int) + 9) 12
  let doy : Int := Int.fdiv (153 * mp + 2) 5 + (d : Int) - 1
  let doe : Int := yoe * 365 + Int.fdiv yoe 4 - Int.fdiv yoe 100 + doy
  era * 146097 + doe - 719468

/-- Seconds since the epoch; `end_time - start_time` of Python datetimes is
the difference of these values. -/
def dtToSec (t : DateTime) : Int :=
  daysFromCivil t.year t.month t.day * 86400
    + (t.hour : Int) * 3600 + (t.minute : Int) * 60 + (t.second : Int)

/-! ## The outline data model (orgnode.py) -/

/-- `OrgClock` from orgnode.py; `duration` is stored in seconds
(`timedelta.total_seconds()`). -/
structure OrgClock where
  start_time : DateTime
  end_time : Option DateTime
  duration : Option Int
deriving DecidableEq, Repr

/-- The `OrgClock.__init__` logic: duration is derived from the two
timestamps (`end_time - start_time` when the end is present). -/
def OrgClock.make (start : DateTime) (stop : Option DateTime) : OrgClock :=
  ⟨start, stop, stop.map (fun e => dtToSec e - dtToSec start)⟩

/-- `OrgNode` from orgnode.py (pydantic model with optional fields). -/
structure OrgNode where
  heading : String
  todo : Option String := none
  tags : Option (List String) := none
  properties : Option (List (String × String)) := none
  body : Option String := none
  timestamp : Option DateTime := none
  clocks : Option (List OrgClock) := none
  level : Nat := 1
deriving DecidableEq, Repr

/-- `OrgFile` from orgnode.py: a root node plus ordered children. -/
structure OrgFile where
  root : OrgNode
  children : List OrgNode
deriving DecidableEq, Repr

/-- Python truthiness of an optional string (`None` and `""` are falsy). -/
def truthyS : Option String → Bool
  | none => false
  | some s => s ≠ ""

/-! ## Python dicts with string keys

Insertion-ordered association lists: assignment to an existing key replaces
the value in place (keeping the original position), assignment to a new key
appends, `pop` removes the entry. -/

abbrev Dict := List (String × OrgNode)

def assocFind (d : Dict) (k : String) : Option OrgNode :=
  match d with
  | [] => none
  | (k', v) :: r => if k' = k then some v else assocFind r k

/-- Python `d[k] = v`. -/
def assocReplace (d : Dict) (k : String) (v : OrgNode) : Dict :=
  match d with
  | [] => []
  | (k', v') :: r => if k' = k then (k', v) :: r else (k', v') :: assocReplace r k v

def dictSet (d : Dict) (k : String) (v : OrgNode) : Dict :=
  match assocFind d k with
  | some _ => assocReplace d k v
  | none => d ++ [(k, v)]

/-- Python `d.pop(k)` (removes the first entry with the key). -/
def eraseKey (d : Dict) (k : String) : Dict :=
  match d with
  | [] => []
  | (k', v) :: r => if k' = k then r else (k', v) :: eraseKey r k

/-! ## The merge engine (main.py) -/

/-- `update(old, new)` from main.py lines 95-109: heading and body are
replaced unconditionally; if both timestamps are present and the old one
precedes the new one, the timestamp is adopted and a `DONE`/`CANCELLED`
status keyword is cleared. -/
def update (old newn : OrgNode) : OrgNode :=
  let o := { old with heading := newn.heading, body := newn.body }
  match o.timestamp, newn.timestamp with
  | some t1, some t2 =>
    if dtLt t1 t2 then
      let o2 := { o with timestamp := some t2 }
      if o2.todo = some "DONE" ∨ o2.todo = some "CANCELLED" then
        { o2 with todo := some "" }
      else o2
    else o
  | _, _ => o

/-- The duplicate-heading lookup construction from main.py lines 136-144:
if the stored entry's clocks are truthy they are extended with the new
entry's clocks (or `[]`), otherwise they are overwritten wholesale. -/
def mergeClocksPy (a b : OrgNode) : OrgNode :=
  match a.clocks with
  | some (c :: cs) =>
      { a with clocks := some ((c :: cs) ++ (match b.clocks with
          | some l => l
          | none => [])) }
  | _ => { a with clocks := b.clocks }

/-- main.py lines 136-144: build `existing_entries` keyed by heading. -/
def buildExisting (cs : List OrgNode) : Dict :=
  cs.foldl (fun d c =>
    match assocFind d c.heading with
    | some e => assocReplace d c.heading (mergeClocksPy e c)
    | none => d ++ [(c.heading, c)]) []

/-- main.py lines 147-156, the loop over the fetched calendar dict.
When a fetched entry's timestamp is `None` the log statement evaluates
`calendar[id]` where `id` is the Python builtin function — never a string
key of the dict — so a `KeyError` is raised and the run aborts; this is
modelled by `Except.error ()`. -/
def mergeLoop : Dict → List (String × OrgNode) → Except Unit (Dict × List OrgNode)
  | ex, [] => .ok (ex, [])
  | ex, (h, v) :: rest =>
    match v.timestamp with
    | none => .error ()
    | some _ =>
      match assocFind ex h with
      | some e =>
        match mergeLoop (eraseKey ex h) rest with
        | .error u => .error u
        | .ok (ex', out) => .ok (ex', update e v :: out)
      | none =>
        match mergeLoop ex rest with
        | .error u => .error u
        | .ok (ex', out) => .ok (ex', v :: out)

/-- main.py lines 159-163: iterate over a snapshot of the remaining keys,
popping entries whose status keyword is falsy. -/
def stalePop (d : Dict) : Dict :=
  (d.map (fun p => p.1)).foldl (fun d' k =>
    match assocFind d' k with
    | some e => if truthyS e.todo then d' else eraseKey d' k
    | none => d') d

/-- main.py lines 136-167: the full merge of the existing children against
the fetched calendar dict, producing the new children list (retained
leftovers first, then the fetched-ordered entries). -/
def mainMerge (children : List OrgNode) (cal : List (String × OrgNode)) :
    Except Unit (List OrgNode) :=
  match mergeLoop (buildExisting children) cal with
  | .error u => .error u
  | .ok (ex, out) => .ok ((stalePop ex).map (fun p => p.2) ++ out)

/-- The per-entry result of the merge loop for a fixed initial lookup. -/
def mergeStep (ex : Dict) (p : String × OrgNode) : OrgNode :=
  match assocFind ex p.1 with
  | some e => update e p.2
  | none => p.2

/-! ## Association-list lemmas -/

theorem assocFind_cons (k' : String) (v : OrgNode) (r : Dict) (k : String) :
    assocFind ((k', v) :: r) k = if k' = k then some v else assocFind r k := rfl

theorem eraseKey_cons (k' : String) (v : OrgNode) (r : Dict) (k : String) :
    eraseKey ((k', v) :: r) k = if k' = k then r else (k', v) :: eraseKey r k := rfl

theorem assocFind_eq_none (d : Dict) (k : String) :
    assocFind d k = none ↔ k ∉ d.map (fun p => p.1) := by
  induction d with
  | nil => simp [assocFind]
  | cons p r ih =>
    obtain ⟨k', v⟩ := p
    rw [assocFind_cons]
    by_cases h : k' = k
    · rw [if_pos h]
      simp [h]
    · rw [if_neg h, ih]
      simp only [List.map_cons, List.mem_cons]
      constructor
      · intro hm hc
        rcases hc with hc | hc
        · exact h hc.symm
        · exact hm hc
      · intro hc hm
        exact hc (Or.inr hm)

theorem assocFind_eraseKey_ne (d : Dict) (k h : String) (hne : k ≠ h) :
    assocFind (eraseKey d h) k = assocFind d k := by
  induction d with
  | nil => rfl
  | cons p r ih =>
    obtain ⟨k', v⟩ := p
    rw [eraseKey_cons]
    by_cases hk : k' = h
    · rw [if_pos hk, assocFind_cons,
        if_neg (fun hc : k' = k => hne (by rw [← hc, hk]))]
    · rw [if_neg hk, assocFind_cons, assocFind_cons]
      by_cases hkk : k' = k
      · rw [if_pos hkk, if_pos hkk]
      · rw [if_neg hkk, if_neg hkk, ih]

theorem eraseKey_eq_filter (d : Dict) (k : String)
    (hnd : (d.map (fun p => p.1)).Nodup) :
    eraseKey d k = d.filter (fun p => decide (p.1 ≠ k)) := by
  induction d with
  | nil => rfl
  | cons p r ih =>
    obtain ⟨k', v⟩ := p
    simp only [List.map_cons, List.nodup_cons] at hnd
    rw [eraseKey_cons]
    by_cases hk : k' = k
    · rw [if_pos hk]
      have h3 : ((k', v) :: r).filter (fun p => decide (p.1 ≠ k))
          = r.filter (fun p => decide (p.1 ≠ k)) := by
        rw [List.filter_cons]
        simp [hk]
      rw [h3]
      have h2 : r.filter (fun p => decide (p.1 ≠ k)) = r := by
        apply List.filter_eq_self.mpr
        intro q hq
        simp only [decide_eq_true_eq]
        intro hc
        apply hnd.1
        rw [hk]
        exact hc ▸ List.mem_map_of_mem (fun z => z.1) hq
      rw [h2]
    · rw [if_neg hk]
      have h3 : ((k', v) :: r).filter (fun p => decide (p.1 ≠ k))
          = (k', v) :: r.filter (fun p => decide (p.1 ≠ k)) := by
        rw [List.filter_cons]
        simp [hk]
      rw [h3, ih hnd.2]

theorem assocFind_of_mem (d : Dict) (p : String × OrgNode)
    (hnd : (d.map (fun q => q.1)).Nodup) (hp : p ∈ d) :
    assocFind d p.1 = some p.2 := by
  induction d with
  | nil => cases hp
  | cons q r ih =>
    obtain ⟨k', v⟩ := q
    simp only [List.map_cons, List.nodup_cons] at hnd
    rcases List.mem_cons.mp hp with hp | hp
    · rw [hp]
      rw [assocFind_cons, if_pos rfl]
    · have h1 : p.1 ∈ r.map (fun q => q.1) := List.mem_map_of_mem _ hp
      have hne : k' ≠ p.1 := fun hh => hnd.1 (hh ▸ h1)
      rw [assocFind_cons, if_neg hne, ih hnd.2 hp]

theorem eraseKey_keys_nodup (d : Dict) (k : String)
    (hnd : (d.map (fun p => p.1)).Nodup) :
    ((eraseKey d k).map (fun p => p.1)).Nodup := by
  rw [eraseKey_eq_filter d k hnd]
  exact ((List.filter_sublist d).map (fun p => p.1)).nodup hnd

/-! ## Merge-loop characterization -/

theorem mergeLoop_eq (ex : Dict) (cal : List (String × OrgNode))
    (hex : (ex.map (fun p => p.1)).Nodup)
    (hnd : (cal.map (fun p => p.1)).Nodup)
    (hts : ∀ p ∈ cal, (p.2.timestamp).isSome = true) :
    mergeLoop ex cal =
      .ok (ex.filter (fun p => decide (p.1 ∉ cal.map (fun q => q.1))),
           cal.map (mergeStep ex)) := by
  induction cal generalizing ex with
  | nil =>
    have h1 : ex.filter (fun p => decide (p.1 ∉ ([] : List (String × OrgNode)).map
        (fun q => q.1))) = ex := by
      apply List.filter_eq_self.mpr
      intro q _
      simp
    rw [h1]
    rfl
  | cons q rest ih =>
    obtain ⟨h, v⟩ := q
    simp only [List.map_cons, List.nodup_cons] at hnd
    have hv : (v.timestamp).isSome = true := hts (h, v) (List.mem_cons_self _ _)
    obtain ⟨t, htv⟩ := Option.isSome_iff_exists.mp hv
    have hts' : ∀ p ∈ rest, (p.2.timestamp).isSome = true :=
      fun p hp => hts p (List.mem_cons_of_mem _ hp)
    cases hfind : assocFind ex h with
    | some e =>
      have hex' := eraseKey_keys_nodup ex h hex
      have hrec := ih (eraseKey ex h) hex' hnd.2 hts'
      have hmap : rest.map (mergeStep (eraseKey ex h)) = rest.map (mergeStep ex) := by
        apply List.map_congr_left
        intro p hp
        have hne : p.1 ≠ h := by
          intro hc
          exact hnd.1 (hc ▸ List.mem_map_of_mem (fun z => z.1) hp)
        show (match assocFind (eraseKey ex h) p.1 with
          | some e => update e p.2
          | none => p.2) = _
        rw [assocFind_eraseKey_ne ex p.1 h hne]
        rfl
      have hfilt : (eraseKey ex h).filter
            (fun p => decide (p.1 ∉ rest.map (fun z => z.1)))
          = ex.filter (fun p => decide (p.1 ∉ ((h, v) :: rest).map (fun z => z.1))) := by
        rw [eraseKey_eq_filter ex h hex, List.filter_filter]
        apply List.filter_congr
        intro p _
        simp only [List.map_cons, List.mem_cons]
        by_cases hph : p.1 = h
        · simp [hph]
        · simp [hph]
      have hstep : mergeStep ex (h, v) = update e v := by
        show (match assocFind ex h with
          | some e => update e v
          | none => v) = _
        rw [hfind]
      simp only [mergeLoop, htv, hfind, hrec]
      rw [hmap, hfilt]
      simp only [List.map_cons, hstep]
    | none =>
      have hrec := ih ex hex hnd.2 hts'
      have hfilt : ex.filter (fun p => decide (p.1 ∉ rest.map (fun z => z.1)))
          = ex.filter (fun p => decide (p.1 ∉ ((h, v) :: rest).map (fun z => z.1))) := by
        apply List.filter_congr
        intro p hp
        have hne : p.1 ≠ h := by
          intro hc
          have h1 := (assocFind_eq_none ex h).mp hfind
          exact h1 (hc ▸ List.mem_map_of_mem (fun z => z.1) hp)
        simp only [List.map_cons, List.mem_cons]
        simp [hne]
      have hstep : mergeStep ex (h, v) = v := by
        show (match assocFind ex h with
          | some e => update e v
          | none => v) = _
        rw [hfind]
      simp only [mergeLoop, htv, hfind, hrec]
      rw [hfilt]
      simp only [List.map_cons, hstep]

theorem mergeLoop_error (ex : Dict) (cal : List (String × OrgNode))
    (hbad : ∃ p ∈ cal, p.2.timestamp = none) :
    mergeLoop ex cal = .error () := by
  induction cal generalizing ex with
  | nil =>
    obtain ⟨p, hp, _⟩ := hbad
    cases hp
  | cons q rest ih =>
    obtain ⟨h, v⟩ := q
    cases htv : v.timestamp with
    | none => simp [mergeLoop, htv]
    | some t =>
      have hbad' : ∃ p ∈ rest, p.2.timestamp = none := by
        obtain ⟨p, hp, hnone⟩ := hbad
        rcases List.mem_cons.mp hp with hp | hp
        · rw [hp] at hnone
          rw [htv] at hnone
          cases hnone
        · exact ⟨p, hp, hnone⟩
      cases hfind : assocFind ex h with
      | some e => simp [mergeLoop, htv, hfind, ih _ hbad']
      | none => simp [mergeLoop, htv, hfind, ih _ hbad']

/-! ## Stale-entry removal characterization -/

theorem staleFold_eq (ks : List String) (d : Dict)
    (hks : ks.Nodup) (hd : (d.map (fun p => p.1)).Nodup) :
    ks.foldl (fun d' k =>
      match assocFind d' k with
      | some e => if truthyS e.todo then d' else eraseKey d' k
      | none => d') d
    = d.filter (fun p => decide (p.1 ∉ ks) || truthyS p.2.todo) := by
  induction ks generalizing d with
  | nil =>
    have h1 : d.filter (fun p => decide (p.1 ∉ ([] : List String)) || truthyS p.2.todo)
        = d := by
      apply List.filter_eq_self.mpr
      intro q _
      simp
    rw [h1]
    rfl
  | cons k ks ih =>
    simp only [List.nodup_cons] at hks
    rw [List.foldl_cons]
    cases hfind : assocFind d k with
    | none =>
      simp only [hfind]
      rw [ih d hks.2 hd]
      apply List.filter_congr
      intro p hp
      have hne : p.1 ≠ k := by
        intro hc
        exact (assocFind_eq_none d k).mp hfind
          (hc ▸ List.mem_map_of_mem (fun z => z.1) hp)
      simp [List.mem_cons, hne]
    | some e =>
      by_cases htr : truthyS e.todo = true
      · simp only [hfind, htr, if_true]
        rw [ih d hks.2 hd]
        apply List.filter_congr
        intro p hp
        by_cases hpk : p.1 = k
        · have h1 := assocFind_of_mem d p hd hp
          rw [hpk, hfind] at h1
          have hpe : e = p.2 := by injection h1
          simp [List.mem_cons, hpk, hks.1, ← hpe, htr]
        · simp [List.mem_cons, hpk]
      · have htr' : truthyS e.todo = false := Bool.not_eq_true _ ▸ Bool.eq_false_iff.mpr htr
        simp only [hfind, htr', Bool.false_eq_true, if_false]
        have hd' := eraseKey_keys_nodup d k hd
        rw [ih _ hks.2 hd', eraseKey_eq_filter d k hd, List.filter_filter]
        apply List.filter_congr
        intro p hp
        by_cases hpk : p.1 = k
        · have h1 := assocFind_of_mem d p hd hp
          rw [hpk, hfind] at h1
          have hpe : e = p.2 := by injection h1
          have h2 : truthyS p.2.todo = false := by rw [← hpe]; exact htr'
          simp [List.mem_cons, hpk, h2]
        · simp [List.mem_cons, hpk]

theorem stalePop_eq (d : Dict) (hd : (d.map (fun p => p.1)).Nodup) :
    stalePop d = d.filter (fun p => truthyS p.2.todo) := by
  show (d.map (fun p => p.1)).foldl _ d = _
  rw [staleFold_eq (d.map (fun p => p.1)) d hd hd]
  apply List.filter_congr
  intro p hp
  have h1 : p.1 ∈ d.map (fun z => z.1) := List.mem_map_of_mem _ hp
  simp [h1]

/-! ## Existing-entry lookup construction -/

theorem buildExisting_eq_aux (cs : List OrgNode) (acc : Dict)
    (hnd : (cs.map OrgNode.heading).Nodup)
    (hdisj : ∀ c ∈ cs, c.heading ∉ acc.map (fun p => p.1)) :
    cs.foldl (fun d c =>
      match assocFind d c.heading with
      | some e => assocReplace d c.heading (mergeClocksPy e c)
      | none => d ++ [(c.heading, c)]) acc
    = acc ++ cs.map (fun c => (c.heading, c)) := by
  induction cs generalizing acc with
  | nil => simp
  | cons c cs ih =>
    simp only [List.map_cons, List.nodup_cons] at hnd
    have hfind : assocFind acc c.heading = none :=
      (assocFind_eq_none acc c.heading).mpr (hdisj c (List.mem_cons_self _ _))
    rw [List.foldl_cons]
    simp only [hfind]
    rw [ih (acc ++ [(c.heading, c)]) hnd.2]
    · simp
    · intro c' hc'
      simp only [List.map_append, List.mem_append, List.map_cons, List.map_nil,
        List.mem_singleton, not_or]
      constructor
      · exact hdisj c' (List.mem_cons_of_mem _ hc')
      · intro hc
        exact hnd.1 (hc ▸ List.mem_map_of_mem OrgNode.heading hc')

theorem buildExisting_eq (cs : List OrgNode)
    (hnd : (cs.map OrgNode.heading).Nodup) :
    buildExisting cs = cs.map (fun c => (c.heading, c)) := by
  show cs.foldl _ [] = _
  rw [buildExisting_eq_aux cs [] hnd (by simp)]
  simp

/-! ## Facts about `update` -/

theorem update_timestamp_todo (e v : OrgNode) (t1 t2 : DateTime)
    (ht1 : e.timestamp = some t1) (ht2 : v.timestamp = some t2)
    (hlt : dtLt t1 t2 = true) :
    (update e v).timestamp = some t2 ∧
    (update e v).todo =
      (if e.todo = some "DONE" ∨ e.todo = some "CANCELLED" then some "" else e.todo) := by
  unfold update
  simp only [ht1, ht2]
  rw [if_pos hlt]
  by_cases hd : e.todo = some "DONE" ∨ e.todo = some "CANCELLED"
  · simp only [if_pos hd]
    exact ⟨trivial, trivial⟩
  · simp only [if_neg hd]
    exact ⟨trivial, trivial⟩

/-- C4: the merge's in-place `update` only touches heading, body,
timestamp and status keyword; clocks, tags, properties and level are
left unchanged. -/
theorem C4_update_frame (old newn : OrgNode) :
    (update old newn).clocks = old.clocks ∧
    (update old newn).tags = old.tags ∧
    (update old newn).properties = old.properties ∧
    (update old newn).level = old.level := by
  unfold update
  cases hts : old.timestamp with
  | none => cases htn : newn.timestamp <;> simp [hts, htn]
  | some t1 =>
    cases htn : newn.timestamp with
    | none => simp [hts, htn]
    | some t2 =>
      simp only [hts, htn]
      by_cases hlt : dtLt t1 t2 = true
      · simp only [if_pos hlt]
        by_cases hd : old.todo = some "DONE" ∨ old.todo = some "CANCELLED"
        · simp only [if_pos hd]
          exact ⟨trivial, trivial, trivial, trivial⟩
        · simp only [if_neg hd]
          exact ⟨trivial, trivial, trivial, trivial⟩
      · simp only [if_neg hlt]
        exact ⟨trivial, trivial, trivial, trivial⟩

/-- C2: in the heading-matched merge loop, a fetched entry matching an
existing one whose timestamp strictly precedes the fetched timestamp is
updated in place (timestamp adopted, a DONE/CANCELLED status keyword
cleared and only then), removed from the lookup, and placed in the output
at the fetched entry's position. -/
theorem C2_matched_entry_updated (ex : Dict) (cal : List (String × OrgNode))
    (i : Nat) (h : String) (v e : OrgNode) (t1 t2 : DateTime)
    (hex : (ex.map (fun p => p.1)).Nodup)
    (hnd : (cal.map (fun p => p.1)).Nodup)
    (hts : ∀ p ∈ cal, (p.2.timestamp).isSome = true)
    (hget : cal.get? i = some (h, v))
    (hfind : assocFind ex h = some e)
    (ht1 : e.timestamp = some t1) (ht2 : v.timestamp = some t2)
    (hlt : dtLt t1 t2 = true) :
    ∃ ex' out, mergeLoop ex cal = .ok (ex', out) ∧
      out.get? i = some (update e v) ∧
      (update e v).timestamp = some t2 ∧
      (update e v).todo =
        (if e.todo = some "DONE" ∨ e.todo = some "CANCELLED" then some "" else e.todo) ∧
      out.length = cal.length ∧
      assocFind ex' h = none := by
  refine ⟨ex.filter (fun p => decide (p.1 ∉ cal.map (fun q => q.1))),
    cal.map (mergeStep ex), mergeLoop_eq ex cal hex hnd hts, ?_, ?_, ?_, ?_, ?_⟩
  · rw [List.get?_map, hget]
    show some (mergeStep ex (h, v)) = _
    show some (match assocFind ex h with
      | some e => update e v
      | none => v) = _
    rw [hfind]
  · exact (update_timestamp_todo e v t1 t2 ht1 ht2 hlt).1
  · exact (update_timestamp_todo e v t1 t2 ht1 ht2 hlt).2
  · exact List.length_map cal (mergeStep ex)
  · apply (assocFind_eq_none _ h).mpr
    intro hmem
    obtain ⟨p, hp, hph⟩ := List.mem_map.mp hmem
    have hpf := List.mem_filter.mp hp
    have hhk : h ∈ cal.map (fun q => q.1) :=
      List.mem_map_of_mem (fun q => q.1) (List.get?_mem hget)
    have := hpf.2
    rw [hph] at this
    simp only [decide_eq_true_eq] at this
    exact this hhk

theorem mainMerge_ok (children : List OrgNode) (cal : List (String × OrgNode))
    (F : Dict) (M : List OrgNode)
    (h : mergeLoop (buildExisting children) cal = .ok (F, M)) :
    mainMerge children cal = .ok ((stalePop F).map (fun p => p.2) ++ M) := by
  unfold mainMerge
  rw [h]

/-- C3 counterexample input: two existing entries with the same heading,
the second carrying a `TODO` status keyword. -/
def dupPlain : OrgNode := { heading := "A" }

def dupTodo : OrgNode := { heading := "A", todo := some "TODO" }

/-- C3 counterexample: with duplicate headings, an existing entry that
carries a status keyword (`TODO`) and matches no fetched entry is
nevertheless dropped from the output (the lookup kept only the first,
status-less, duplicate), so the claim as stated fails. -/
theorem C3_counterexample :
    dupTodo.todo = some "TODO" ∧
    mainMerge [dupPlain, dupTodo] [] = Except.ok [] := by
  constructor
  · rfl
  · rfl

/-- C3 (amended to entries with pairwise distinct headings): after the
merge loop, an existing entry unmatched by every fetched entry is dropped
exactly when its status keyword is falsy, and the retained leftovers are
placed before the fetched-ordered entries in the final children list. -/
theorem C3_stale_removal (children : List OrgNode) (cal : List (String × OrgNode))
    (hnd : (children.map OrgNode.heading).Nodup)
    (hcal : (cal.map (fun p => p.1)).Nodup)
    (hts : ∀ p ∈ cal, (p.2.timestamp).isSome = true) :
    mainMerge children cal =
      .ok ((children.filter (fun c =>
              decide (c.heading ∉ cal.map (fun p => p.1)) && truthyS c.todo))
           ++ cal.map (mergeStep (children.map (fun c => (c.heading, c))))) := by
  have hkeys : ((children.map (fun c => (c.heading, c))).map (fun p => p.1)).Nodup := by
    rw [List.map_map]
    exact hnd
  have hloop : mergeLoop (buildExisting children) cal =
      .ok (((children.map (fun c => (c.heading, c))).filter
              (fun p => decide (p.1 ∉ cal.map (fun q => q.1)))),
           cal.map (mergeStep (children.map (fun c => (c.heading, c))))) := by
    rw [buildExisting_eq children hnd]
    exact mergeLoop_eq (children.map (fun c => (c.heading, c))) cal hkeys hcal hts
  have hfk : (((children.map (fun c => (c.heading, c))).filter
      (fun p => decide (p.1 ∉ cal.map (fun q => q.1)))).map (fun p => p.1)).Nodup :=
    ((List.filter_sublist (children.map (fun c => (c.heading, c)))).map
      (fun p : String × OrgNode => p.1)).nodup hkeys
  rw [mainMerge_ok children cal _ _ hloop]
  rw [stalePop_eq _ hfk, List.filter_filter]
  have hcomm : ((children.map (fun c => (c.heading, c))).filter
        (fun p => truthyS p.2.todo && decide (p.1 ∉ cal.map (fun q => q.1))))
      = (children.filter (fun c =>
          decide (c.heading ∉ cal.map (fun p => p.1)) && truthyS c.todo)).map
          (fun c => (c.heading, c)) := by
    rw [List.filter_map]
    apply congrArg (List.map (fun c : OrgNode => (c.heading, c)))
    apply List.filter_congr
    intro c _
    simp only [Function.comp_apply]
    rw [Bool.and_comm]
  rw [hcomm, List.map_map]
  have hsnd : ((fun p : String × OrgNode => p.2) ∘ (fun c => (c.heading, c)))
      = fun c : OrgNode => c := rfl
  rw [hsnd, List.map_id']

/-- C9: when any fetched entry has no resolved timestamp, the merge does
not skip it and continue — the log statement indexes the calendar dict
with the Python builtin `id`, raising `KeyError` and aborting the whole
merge. -/
theorem C9_missing_timestamp_aborts (children : List OrgNode)
    (cal : List (String × OrgNode))
    (hbad : ∃ p ∈ cal, p.2.timestamp = none) :
    mainMerge children cal = Except.error () := by
  unfold mainMerge
  rw [mergeLoop_error (buildExisting children) cal hbad]

/-- Concrete fetched entry without a timestamp (C9 failing input). -/
def noTsNode : OrgNode := { heading := "Standup" }

/-- Concrete fetched entry with a timestamp. -/
def okTsNode : OrgNode :=
  { heading := "Review", timestamp := some ⟨2025, 6, 2, 10, 0, 0⟩ }

/-- C9 witness: at a concrete calendar containing a timestamp-less entry
followed by a well-formed one, the merge aborts with an error instead of
skipping the single bad entry. -/
theorem C9_missing_timestamp_aborts_witness :
    mainMerge [] [("Standup", noTsNode), ("Review", okTsNode)] = Except.error () :=
  C9_missing_timestamp_aborts [] [("Standup", noTsNode), ("Review", okTsNode)]
    ⟨("Standup", noTsNode), by decide⟩

/-- C2 witness: concrete existing DONE entry matched by a fetched entry
one week later. -/
def wEx2 : OrgNode :=
  { heading := "Sync", todo := some "DONE",
    timestamp := some ⟨2024, 1, 1, 10, 0, 0⟩ }

def wNew2 : OrgNode :=
  { heading := "Sync", todo := some "",
    timestamp := some ⟨2024, 1, 8, 10, 0, 0⟩ }

theorem C2_matched_entry_updated_witness :
    ∃ ex' out, mergeLoop [("Sync", wEx2)] [("Sync", wNew2)] = .ok (ex', out) ∧
      out.get? 0 = some (update wEx2 wNew2) ∧
      (update wEx2 wNew2).timestamp = some ⟨2024, 1, 8, 10, 0, 0⟩ ∧
      (update wEx2 wNew2).todo =
        (if wEx2.todo = some "DONE" ∨ wEx2.todo = some "CANCELLED" then some "" else wEx2.todo) ∧
      out.length = [("Sync", wNew2)].length ∧
      assocFind ex' "Sync" = none :=
  C2_matched_entry_updated [("Sync", wEx2)] [("Sync", wNew2)] 0 "Sync" wNew2 wEx2
    ⟨2024, 1, 1, 10, 0, 0⟩ ⟨2024, 1, 8, 10, 0, 0⟩ (by decide) (by decide)
    (by decide) (by decide) (by decide) (by decide) (by decide) (by decide)

/-- C3 witness input: an unmatched entry with a status keyword, an
unmatched entry without one, and one fetched entry. -/
def c3keep : OrgNode := { heading := "Keep", todo := some "TODO" }

def c3stale : OrgNode := { heading := "Stale" }

def c3new : OrgNode :=
  { heading := "New", todo := some "", timestamp := some ⟨2025, 3, 1, 9, 0, 0⟩ }

theorem C3_stale_removal_witness :
    mainMerge [c3keep, c3stale] [("New", c3new)] =
      .ok (([c3keep, c3stale].filter (fun c =>
              decide (c.heading ∉ [("New", c3new)].map (fun p => p.1)) && truthyS c.todo))
           ++ [("New", c3new)].map (mergeStep ([c3keep, c3stale].map (fun c => (c.heading, c))))) :=
  C3_stale_removal [c3keep, c3stale] [("New", c3new)]
    (by decide) (by decide) (by decide)

/-! ## Appointments and `build_entry` (main.py lines 18-93) -/

/-- `appt['location']` (always present; `displayName` optional). -/
structure Location where
  displayName : Option String
deriving DecidableEq, Repr

/-- `appt['onlineMeeting']` (optional; `joinUrl` optional inside it). -/
structure OnlineMeeting where
  joinUrl : Option String
deriving DecidableEq, Repr

/-- `appt['responseStatus']` (optional; `response` optional inside it). -/
structure ResponseStatus where
  response : Option String
deriving DecidableEq, Repr

/-- A raw appointment record as consumed by main.py; `start` and
`endTime` hold the `dateTime` strings of `appt['start']` / `appt['end']`. -/
structure Appt where
  id : Option String
  subject : String
  bodyPreview : String
  start : String
  endTime : String
  location : Location
  onlineMeeting : Option OnlineMeeting
  categories : Option (List String)
  responseStatus : Option ResponseStatus
deriving DecidableEq, Repr

def digitVal (c : Char) : Nat := c.toNat - 48

def parse2 (a b : Char) : Option Nat :=
  if a.isDigit && b.isDigit then some (digitVal a * 10 + digitVal b) else none

def parse4 (a b c d : Char) : Option Nat :=
  if a.isDigit && b.isDigit && c.isDigit && d.isDigit then
    some (digitVal a * 1000 + digitVal b * 100 + digitVal c * 10 + digitVal d)
  else none

/-- `strptime(dateStr, "%Y-%m-%dT%H:%M:%S.0000000")` on the character
list of the service's date string. -/
def parseCalChars : List Char → Option DateTime
  | y1 :: y2 :: y3 :: y4 :: '-' :: m1 :: m2 :: '-' :: d1 :: d2 :: 'T' ::
      h1 :: h2 :: ':' :: n1 :: n2 :: ':' :: s1 :: s2 :: rest =>
    if rest = ".0000000".data then
      match parse4 y1 y2 y3 y4, parse2 m1 m2, parse2 d1 d2,
            parse2 h1 h2, parse2 n1 n2, parse2 s1 s2 with
      | some y, some mo, some d, some h, some mi, some s =>
        if 1 ≤ mo ∧ mo ≤ 12 ∧ 1 ≤ d ∧ d ≤ 31 ∧ h ≤ 23 ∧ mi ≤ 59 ∧ s ≤ 59 then
          some ⟨y, mo, d, h, mi, s⟩
        else none
      | _, _, _, _, _, _ => none
    else none
  | _ => none

def isLeap (y : Nat) : Bool := (y % 4 = 0 && y % 100 ≠ 0) || y % 400 = 0

def daysInMonth (y m : Nat) : Nat :=
  match m with
  | 1 => 31 | 2 => if isLeap y then 29 else 28 | 3 => 31 | 4 => 30
  | 5 => 31 | 6 => 30 | 7 => 31 | 8 => 31 | 9 => 30 | 10 => 31
  | 11 => 30 | _ => 31

/-- `astimezone(Asia/Kolkata)` on a UTC datetime: add 5 hours 30 minutes,
carrying into the calendar date. -/
def addKolkata (t : DateTime) : DateTime :=
  let mi := t.minute + 30
  let h := t.hour + 5 + mi / 60
  let mi := mi % 60
  if h < 24 then ⟨t.year, t.month, t.day, h, mi, t.second⟩
  else if t.day < daysInMonth t.year t.month then
    ⟨t.year, t.month, t.day + 1, h - 24, mi, t.second⟩
  else if t.month < 12 then ⟨t.year, t.month + 1, 1, h - 24, mi, t.second⟩
  else ⟨t.year + 1, 1, 1, h - 24, mi, t.second⟩

/-- `parse_cal_date` from main.py lines 18-22. -/
def parse_cal_date (s : String) : Option DateTime :=
  (parseCalChars s.data).map addKolkata

def lowerStr (s : String) : String := ⟨s.data.map Char.toLower⟩

/-- `build_entry` from main.py lines 61-93 (a failed date parse raises,
modelled by `none`). -/
def build_entry (appt : Appt) : Option OrgNode :=
  match parse_cal_date appt.start, parse_cal_date appt.endTime with
  | some apptstart, some _ =>
    let tags := ["meeting", "work"] ++
      (match appt.categories with
       | some cs => if cs ≠ [] then cs.map lowerStr else []
       | none => [])
    let properties :=
      (if truthyS appt.location.displayName then
        [("LOCATION", appt.location.displayName.getD "")] else []) ++
      (if (match appt.onlineMeeting with
           | some om => truthyS om.joinUrl
           | none => false) then
        [("JOINURL", (match appt.onlineMeeting with
           | some om => om.joinUrl.getD ""
           | none => ""))] else []) ++
      (if truthyS appt.id then [("MEETING_ID", appt.id.getD "")] else []) ++
      (if (match appt.responseStatus with
           | some rs => truthyS rs.response
           | none => false) then
        [("RESPONSE_STATUS", (match appt.responseStatus with
           | some rs => rs.response.getD ""
           | none => ""))] else [])
    some { heading := appt.subject, todo := some "", tags := some tags,
           properties := some properties, body := some appt.bodyPreview,
           timestamp := some apptstart }
  | _, _ => none

/-- C5: an appointment with no location display name, no online-meeting
join URL and no categories yields properties containing exactly
MEETING_ID and RESPONSE_STATUS (identifier and response present) and tags
exactly ["meeting", "work"]. -/
theorem C5_property_omission (a : Appt) (n : OrgNode) (i r : String)
    (rs : ResponseStatus)
    (hloc : truthyS a.location.displayName = false)
    (hom : (match a.onlineMeeting with
            | some om => truthyS om.joinUrl
            | none => false) = false)
    (hcat : a.categories = none ∨ a.categories = some [])
    (hid : a.id = some i) (hine : i ≠ "")
    (hrs : a.responseStatus = some rs) (hr : rs.response = some r) (hrne : r ≠ "")
    (hn : build_entry a = some n) :
    n.properties = some [("MEETING_ID", i), ("RESPONSE_STATUS", r)] ∧
    n.tags = some ["meeting", "work"] := by
  unfold build_entry at hn
  cases hps : parse_cal_date a.start with
  | none => rw [hps] at hn; cases hn
  | some st =>
    cases hpe : parse_cal_date a.endTime with
    | none => rw [hps, hpe] at hn; cases hn
    | some en =>
      rw [hps, hpe] at hn
      have htid : truthyS a.id = true := by rw [hid]; simpa [truthyS] using hine
      have htrs : (match a.responseStatus with
          | some rs => truthyS rs.response
          | none => false) = true := by
        rw [hrs]
        show truthyS rs.response = true
        rw [hr]
        simpa [truthyS] using hrne
      have hcats : (match a.categories with
          | some cs => if cs ≠ [] then cs.map lowerStr else []
          | none => ([] : List String)) = [] := by
        rcases hcat with hc | hc <;> rw [hc] <;> simp
      rw [hloc, hom, htid, htrs, hcats] at hn
      simp only [if_false, if_true, Bool.false_eq_true, List.nil_append,
        List.append_nil] at hn
      injection hn with hh
      rw [← hh]
      constructor
      · simp [hid, hrs, hr]
      · rfl

/-- C5 witness input: appointment with only id and response status. -/
def w5appt : Appt :=
  { id := some "AAMkAGU2", subject := "Design review",
    bodyPreview := "agenda",
    start := "2025-06-05T10:00:00.0000000",
    endTime := "2025-06-05T10:30:00.0000000",
    location := ⟨none⟩, onlineMeeting := none, categories := none,
    responseStatus := some ⟨some "accepted"⟩ }

def w5node : OrgNode :=
  match build_entry w5appt with
  | some n => n
  | none => { heading := "" }

theorem C5_property_omission_witness :
    w5node.properties = some [("MEETING_ID", "AAMkAGU2"),
      ("RESPONSE_STATUS", "accepted")] ∧
    w5node.tags = some ["meeting", "work"] :=
  C5_property_omission w5appt w5node "AAMkAGU2" "accepted" ⟨some "accepted"⟩
    (by decide) (by decide) (Or.inl rfl) rfl (by decide) rfl rfl (by decide)
    (by rfl)

/-- Definition taken from the spec's words, for comparison only: the
body-preview text with all carriage-return characters removed. -/
def specStripCR (s : String) : String := ⟨s.data.filter (fun c => c ≠ '\r')⟩

/-- C6 counterexample input: appointment whose body preview contains a
carriage-return character. -/
def cr6appt : Appt :=
  { id := some "id6", subject := "Weekly sync",
    bodyPreview := "line one\rline two",
    start := "2025-06-05T10:00:00.0000000",
    endTime := "2025-06-05T10:30:00.0000000",
    location := ⟨none⟩, onlineMeeting := none, categories := none,
    responseStatus := some ⟨some "accepted"⟩ }

/-- C6 counterexample: `build_entry` does not strip carriage returns —
the body equals the raw body preview, not the CR-stripped text the claim
describes. -/
theorem C6_counterexample :
    (build_entry cr6appt).bind OrgNode.body = some cr6appt.bodyPreview ∧
    (build_entry cr6appt).bind OrgNode.body ≠ some (specStripCR cr6appt.bodyPreview) := by
  constructor
  · rfl
  · decide

/-- C6 (amended): the produced body is exactly the appointment's raw
body-preview text (no carriage-return stripping is performed). -/
theorem C6_body_verbatim (a : Appt) (n : OrgNode)
    (hn : build_entry a = some n) :
    n.body = some a.bodyPreview := by
  unfold build_entry at hn
  cases hps : parse_cal_date a.start with
  | none => rw [hps] at hn; cases hn
  | some st =>
    cases hpe : parse_cal_date a.endTime with
    | none => rw [hps, hpe] at hn; cases hn
    | some en =>
      rw [hps, hpe] at hn
      injection hn with hh
      rw [← hh]

theorem C6_body_verbatim_witness :
    ((build_entry cr6appt).getD { heading := "" }).body = some cr6appt.bodyPreview :=
  C6_body_verbatim cr6appt ((build_entry cr6appt).getD { heading := "" }) (by rfl)

/-! ## The skip filter and calendar dict (main.py lines 33-58) -/

/-- Contiguous-substring search (`re.search` of a literal pattern). -/
def containsSub (pat : List Char) : List Char → Bool
  | [] => pat.isEmpty
  | x :: xs => pat.isPrefixOf (x :: xs) || containsSub pat xs

/-- The skip rule `(^Canceled:|PTO|out of office|OOO)` with
`re.IGNORECASE`, applied by lowercasing (ASCII) both sides. -/
def skipText (s : String) : Bool :=
  let l := s.data.map Char.toLower
  ("canceled:".data).isPrefixOf l ||
  containsSub "pto".data l ||
  containsSub "out of office".data l ||
  containsSub "ooo".data l

def skipAppt (a : Appt) : Bool := skipText a.subject || skipText a.bodyPreview

/-- The loop of `get_calendar` (main.py lines 49-58): skipped entries are
logged; surviving entries are keyed by subject with plain dict
assignment, so a repeated subject silently overwrites the earlier entry.
A date-parse failure inside `build_entry` raises (`Except.error`). -/
def calFilterAux : Dict × List String → List Appt → Except Unit (Dict × List String)
  | st, [] => .ok st
  | st, a :: rest =>
    if skipAppt a then
      calFilterAux (st.1, st.2 ++ ["Skipping " ++ a.subject]) rest
    else
      match build_entry a with
      | none => .error ()
      | some n => calFilterAux (dictSet st.1 a.subject n, st.2) rest

def get_calendar (appts : List Appt) : Except Unit (Dict × List String) :=
  calFilterAux ([], []) appts

/-! ## Graph request construction (graph.py lines 35-50) -/

def strFind (d : List (String × String)) (k : String) : Option String :=
  match d with
  | [] => none
  | (k', v) :: r => if k' = k then some v else strFind r k

def strReplace (d : List (String × String)) (k v : String) :
    List (String × String) :=
  match d with
  | [] => []
  | (k', v') :: r => if k' = k then (k', v) :: r else (k', v') :: strReplace r k v

/-- A Python dict literal: entries inserted in order, a repeated key
keeping its position but taking the last value. -/
def pyDict (ps : List (String × String)) : List (String × String) :=
  ps.foldl (fun d p =>
    match strFind d p.1 with
    | some _ => strReplace d p.1 p.2
    | none => d ++ [p]) []

/-- graph.py line 40: the calendarview URL f-string (note the literal
`$top:50` — a colon, not `=`). -/
def calendarViewURL (startD endD : String) : String :=
  "https://graph.microsoft.com/v1.0/me/calendarview?startdatetime=" ++ startD ++
  "T00:00:00.000Z&enddatetime=" ++ endD ++
  "T23:59:59.999Z&$orderby=start/dateTime&$top:50"

/-- graph.py lines 41-45: the headers dict literal with a repeated
`Prefer` key. -/
def requestHeaders (token : String) : List (String × String) :=
  pyDict [("Authorization", "Bearer " ++ token),
          ("Prefer", "outlook.timezone=\"India Standard Time\""),
          ("Prefer", "outlook.body-content-type=\"text\"")]

def splitSep (c : Char) : List Char → List (List Char)
  | [] => [[]]
  | x :: xs =>
    match splitSep c xs with
    | [] => [[x]]
    | g :: gs => if x = c then [] :: g :: gs else (x :: g) :: gs

/-- Characters after the first occurrence of `c` (empty if absent). -/
def afterChar (c : Char) (l : List Char) : List Char :=
  (l.dropWhile (fun x => x ≠ c)).tail

def queryParams (url : String) : List (List Char) :=
  splitSep '&' (afterChar '?' url.data)

def paramKey (p : List Char) : List Char := p.takeWhile (fun x => x ≠ '=')

def paramVal (p : List Char) : Option String :=
  match p.dropWhile (fun x => x ≠ '=') with
  | [] => none
  | _ :: rest => some ⟨rest⟩

/-- The value of the first query parameter with the given name:
`none` when the parameter is absent, `some none` when it has no `=`. -/
def queryLookup (url : String) (k : String) : Option (Option String) :=
  ((queryParams url).find? (fun p => paramKey p = k.data)).map paramVal

/-- C7: the issued request has an `$orderby=start/dateTime` query
parameter, but no `$top` parameter at all — the URL carries the literal
malformed token `$top:50` instead, so nothing caps the results at 50 —
and, because the headers dict literal repeats the `Prefer` key, only the
body-content-type preference is sent; the timezone preference is
silently dropped. -/
theorem C7_request_params_and_headers :
    queryLookup (calendarViewURL "2025-06-01" "2025-06-02") "$orderby"
      = some (some "start/dateTime") ∧
    queryLookup (calendarViewURL "2025-06-01" "2025-06-02") "$top" = none ∧
    queryLookup (calendarViewURL "2025-06-01" "2025-06-02") "$top:50" = some none ∧
    requestHeaders "TOKEN" =
      [("Authorization", "Bearer TOKEN"),
       ("Prefer", "outlook.body-content-type=\"text\"")] := by
  refine ⟨?_, ?_, ?_, ?_⟩ <;> rfl

/-! ## Lookup facts for `dictSet` -/

theorem assocReplace_cons (a : String) (b : OrgNode) (r : Dict) (k : String)
    (v : OrgNode) :
    assocReplace ((a, b) :: r) k v =
      if a = k then (a, v) :: r else (a, b) :: assocReplace r k v := rfl

theorem assocFind_append_single (d : Dict) (k : String) (v : OrgNode)
    (k' : String) :
    assocFind (d ++ [(k, v)]) k' =
      match assocFind d k' with
      | some w => some w
      | none => if k = k' then some v else none := by
  induction d with
  | nil => rfl
  | cons p r ih =>
    obtain ⟨a, b⟩ := p
    rw [List.cons_append, assocFind_cons, assocFind_cons]
    by_cases hak : a = k'
    · rw [if_pos hak, if_pos hak]
    · rw [if_neg hak, if_neg hak, ih]

theorem assocFind_assocReplace (d : Dict) (k : String) (v : OrgNode)
    (k' : String) :
    assocFind (assocReplace d k v) k' =
      if k = k' then
        (match assocFind d k with
         | some _ => some v
         | none => none)
      else assocFind d k' := by
  induction d with
  | nil =>
    by_cases h : k = k'
    · rw [if_pos h]
      rfl
    · rw [if_neg h]
      rfl
  | cons p r ih =>
    obtain ⟨a, b⟩ := p
    rw [assocReplace_cons]
    by_cases hak : a = k
    · rw [if_pos hak]
      simp only [assocFind_cons, hak]
      by_cases hkk : k = k'
      · simp [hkk]
      · simp [hkk]
    · rw [if_neg hak]
      simp only [assocFind_cons, ih]
      by_cases hakk : a = k'
      · have hkk : ¬ k = k' := fun hc => hak (hakk.trans hc.symm)
        simp [hakk, hkk, hak]
      · simp [hakk, hak]

theorem assocFind_dictSet (d : Dict) (k : String) (v : OrgNode) (k' : String) :
    assocFind (dictSet d k v) k' = if k = k' then some v else assocFind d k' := by
  unfold dictSet
  cases hf : assocFind d k with
  | some w =>
    rw [assocFind_assocReplace]
    by_cases h : k = k'
    · rw [if_pos h, if_pos h, hf]
    · rw [if_neg h, if_neg h]
  | none =>
    rw [assocFind_append_single]
    by_cases h : k = k'
    · rw [show assocFind d k' = none from h ▸ hf]
    · cases hg : assocFind d k' with
      | some w => simp [h]
      | none => simp [h]

theorem getLast?_cons_match {α : Type} (a : α) (l : List α) :
    (a :: l).getLast? =
      match l.getLast? with
      | some b => some b
      | none => some a := by
  cases l with
  | nil => rfl
  | cons x xs =>
    rw [List.getLast?_cons_cons]
    have h1 : ((x :: xs).getLast?).isSome = true := by
      rw [List.getLast?_isSome]
      simp
    obtain ⟨b, hb⟩ := Option.isSome_iff_exists.mp h1
    rw [hb]

/-! ## Characterization of the calendar filter loop -/

theorem calFilterAux_find (appts : List Appt) (st : Dict × List String)
    (d : Dict) (logs : List String) (s : String)
    (h : calFilterAux st appts = .ok (d, logs)) :
    assocFind d s =
      match (appts.filter (fun a => !skipAppt a && decide (a.subject = s))).getLast? with
      | some a => build_entry a
      | none => assocFind st.1 s := by
  induction appts generalizing st with
  | nil =>
    have h1 : st = (d, logs) := by injection h
    rw [h1]
    rfl
  | cons a rest ih =>
    by_cases hskip : skipAppt a = true
    · have h' : calFilterAux (st.1, st.2 ++ ["Skipping " ++ a.subject]) rest
          = .ok (d, logs) := by
        unfold calFilterAux at h
        rw [if_pos hskip] at h
        exact h
      rw [List.filter_cons_of_neg (by simp [hskip])]
      exact ih (st.1, st.2 ++ ["Skipping " ++ a.subject]) h'
    · cases hb : build_entry a with
      | none =>
        unfold calFilterAux at h
        rw [if_neg hskip, hb] at h
        cases h
      | some n =>
        have h' : calFilterAux (dictSet st.1 a.subject n, st.2) rest
            = .ok (d, logs) := by
          unfold calFilterAux at h
          rw [if_neg hskip, hb] at h
          exact h
        have hrec := ih (dictSet st.1 a.subject n, st.2) h'
        have hskip' : skipAppt a = false := by
          cases hs : skipAppt a with
          | true => exact absurd hs hskip
          | false => rfl
        by_cases hsub : a.subject = s
        · rw [List.filter_cons_of_pos (by simp [hskip', hsub]),
            getLast?_cons_match]
          cases hfr : (rest.filter
              (fun a => !skipAppt a && decide (a.subject = s))).getLast? with
          | some b =>
            rw [hfr] at hrec
            exact hrec
          | none =>
            rw [hfr] at hrec
            refine hrec.trans ?_
            show assocFind (dictSet st.1 a.subject n) s = _
            rw [assocFind_dictSet, if_pos hsub]
            exact hb.symm
        · rw [List.filter_cons_of_neg (by simp [hsub])]
          cases hfr : (rest.filter
              (fun a => !skipAppt a && decide (a.subject = s))).getLast? with
          | some b =>
            rw [hfr] at hrec
            exact hrec
          | none =>
            rw [hfr] at hrec
            refine hrec.trans ?_
            show assocFind (dictSet st.1 a.subject n) s = _
            rw [assocFind_dictSet, if_neg hsub]

theorem calFilterAux_logs (appts : List Appt) (st : Dict × List String)
    (d : Dict) (logs : List String)
    (h : calFilterAux st appts = .ok (d, logs)) :
    logs = st.2 ++ (appts.filter skipAppt).map (fun a => "Skipping " ++ a.subject) := by
  induction appts generalizing st with
  | nil =>
    have h1 : st = (d, logs) := by injection h
    rw [h1]
    simp
  | cons a rest ih =>
    by_cases hskip : skipAppt a = true
    · have h' : calFilterAux (st.1, st.2 ++ ["Skipping " ++ a.subject]) rest
          = .ok (d, logs) := by
        unfold calFilterAux at h
        rw [if_pos hskip] at h
        exact h
      have hrec := ih (st.1, st.2 ++ ["Skipping " ++ a.subject]) h'
      rw [List.filter_cons_of_pos hskip, List.map_cons, hrec]
      simp
    · cases hb : build_entry a with
      | none =>
        unfold calFilterAux at h
        rw [if_neg hskip, hb] at h
        cases h
      | some n =>
        have h' : calFilterAux (dictSet st.1 a.subject n, st.2) rest
            = .ok (d, logs) := by
          unfold calFilterAux at h
          rw [if_neg hskip, hb] at h
          exact h
        rw [List.filter_cons_of_neg hskip]
        exact ih (dictSet st.1 a.subject n, st.2) h'

/-- C10: the filter/transform stage keys its output dict by subject: for
every subject, the dict holds exactly the entry built from the last
non-skipped appointment with that subject (earlier duplicates are
silently overwritten), and the log list records only skip notices —
nothing is logged for a discarded duplicate. -/
theorem C10_last_duplicate_wins (appts : List Appt) (d : Dict)
    (logs : List String) (s : String)
    (h : get_calendar appts = .ok (d, logs)) :
    assocFind d s =
      (match (appts.filter (fun a => !skipAppt a && decide (a.subject = s))).getLast? with
       | some a => build_entry a
       | none => none) ∧
    logs = (appts.filter skipAppt).map (fun a => "Skipping " ++ a.subject) := by
  constructor
  · have h1 := calFilterAux_find appts ([], []) d logs s h
    cases hfr : (appts.filter
        (fun a => !skipAppt a && decide (a.subject = s))).getLast? with
    | some b =>
      rw [hfr] at h1
      exact h1
    | none =>
      rw [hfr] at h1
      exact h1
  · have h2 := calFilterAux_logs appts ([], []) d logs h
    simpa using h2

/-- C10 witness inputs: two non-skipped appointments sharing the subject
`Standup` around a skipped `PTO` one. -/
def w10a : Appt :=
  { id := some "A1", subject := "Standup", bodyPreview := "first",
    start := "2025-06-05T09:00:00.0000000",
    endTime := "2025-06-05T09:15:00.0000000",
    location := ⟨none⟩, onlineMeeting := none, categories := none,
    responseStatus := some ⟨some "accepted"⟩ }

def w10skip : Appt :=
  { id := some "A2", subject := "Team PTO day", bodyPreview := "away",
    start := "2025-06-06T09:00:00.0000000",
    endTime := "2025-06-06T17:00:00.0000000",
    location := ⟨none⟩, onlineMeeting := none, categories := none,
    responseStatus := some ⟨some "accepted"⟩ }

def w10b : Appt :=
  { id := some "A3", subject := "Standup", bodyPreview := "second",
    start := "2025-06-07T09:00:00.0000000",
    endTime := "2025-06-07T09:15:00.0000000",
    location := ⟨none⟩, onlineMeeting := none, categories := none,
    responseStatus := some ⟨some "accepted"⟩ }

def w10dict : Dict :=
  match get_calendar [w10a, w10skip, w10b] with
  | .ok p => p.1
  | .error _ => []

def w10logs : List String :=
  match get_calendar [w10a, w10skip, w10b] with
  | .ok p => p.2
  | .error _ => []

theorem C10_last_duplicate_wins_witness :
    assocFind w10dict "Standup" =
      (match ([w10a, w10skip, w10b].filter
          (fun a => !skipAppt a && decide (a.subject = "Standup"))).getLast? with
       | some a => build_entry a
       | none => none) ∧
    w10logs = ([w10a, w10skip, w10b].filter skipAppt).map
      (fun a => "Skipping " ++ a.subject) :=
  C10_last_duplicate_wins [w10a, w10skip, w10b] w10dict w10logs "Standup" (by rfl)

/-! ## Character and whitespace utilities

`str.strip()` / regex `\s` over the characters that can occur in a line
(newlines are the line separators themselves). -/

def isWS (c : Char) : Bool :=
  c = ' ' || c = '\t' || c = '\x0b' || c = '\x0c' || c = '\r'

def lstrip (l : List Char) : List Char := l.dropWhile isWS

def rstrip (l : List Char) : List Char := (l.reverse.dropWhile isWS).reverse

def strip (l : List Char) : List Char := lstrip (rstrip l)

/-- strftime zero-padded digit rendering. -/
def digitChar (n : Nat) : Char :=
  match n % 10 with
  | 0 => '0' | 1 => '1' | 2 => '2' | 3 => '3' | 4 => '4'
  | 5 => '5' | 6 => '6' | 7 => '7' | 8 => '8' | _ => '9'

def pad2 (n : Nat) : List Char := [digitChar (n / 10), digitChar n]

def pad4 (n : Nat) : List Char :=
  [digitChar (n / 1000), digitChar (n / 100), digitChar (n / 10), digitChar n]

def natCharsAux : Nat → Nat → List Char
  | 0, _ => []
  | fuel + 1, n => if n < 10 then [digitChar n] else natCharsAux fuel (n / 10) ++ [digitChar n]

/-- Decimal rendering of an unbounded number (clock duration hours). -/
def natChars (n : Nat) : List Char := natCharsAux (n + 1) n

theorem digitChar_spec (n : Nat) :
    (digitChar n).isDigit = true ∧ digitVal (digitChar n) = n % 10 := by
  have h10 : n % 10 < 10 := Nat.mod_lt _ (by decide)
  unfold digitChar digitVal
  set m := n % 10 with hm
  interval_cases m <;> exact ⟨rfl, rfl⟩

theorem digitChar_props (n : Nat) :
    isWS (digitChar n) = false ∧ digitChar n ≠ '\n' ∧ digitChar n ≠ ':' ∧
    digitChar n ≠ '*' ∧ digitChar n ≠ ']' ∧ digitChar n ≠ '>' := by
  have h10 : n % 10 < 10 := Nat.mod_lt _ (by decide)
  unfold digitChar
  set m := n % 10 with hm
  interval_cases m <;> exact ⟨rfl, by decide, by decide, by decide, by decide, by decide⟩

theorem parse2_pad2 (n : Nat) (h : n < 100) :
    parse2 (digitChar (n / 10)) (digitChar n) = some n := by
  unfold parse2
  rw [(digitChar_spec (n / 10)).1, (digitChar_spec n).1]
  rw [(digitChar_spec (n / 10)).2, (digitChar_spec n).2]
  simp only [Bool.and_self, if_true]
  congr 1
  omega

theorem parse4_pad4 (n : Nat) (h : n < 10000) :
    parse4 (digitChar (n / 1000)) (digitChar (n / 100)) (digitChar (n / 10))
      (digitChar n) = some n := by
  unfold parse4
  rw [(digitChar_spec (n / 1000)).1, (digitChar_spec (n / 100)).1,
    (digitChar_spec (n / 10)).1, (digitChar_spec n).1]
  rw [(digitChar_spec (n / 1000)).2, (digitChar_spec (n / 100)).2,
    (digitChar_spec (n / 10)).2, (digitChar_spec n).2]
  simp only [Bool.and_self, if_true]
  congr 1
  omega

/-! ## Split and join on a separator character -/

theorem splitSep_cons_eq (c x : Char) (xs : List Char) :
    splitSep c (x :: xs) =
      match splitSep c xs with
      | [] => [[x]]
      | g :: gs => if x = c then [] :: g :: gs else (x :: g) :: gs := rfl

theorem splitSep_ne_nil (c : Char) (l : List Char) : splitSep c l ≠ [] := by
  cases l with
  | nil => simp [splitSep]
  | cons x xs =>
    rw [splitSep_cons_eq]
    cases splitSep c xs with
    | nil => simp
    | cons g gs =>
      by_cases h : x = c <;> simp [h]

theorem splitSep_cons_of_eq (c : Char) (xs g : List Char) (gs : List (List Char))
    (hxs : splitSep c xs = g :: gs) :
    splitSep c (c :: xs) = [] :: g :: gs := by
  rw [splitSep_cons_eq, hxs]
  simp

theorem splitSep_cons_of_ne (c x : Char) (xs g : List Char) (gs : List (List Char))
    (h : x ≠ c) (hxs : splitSep c xs = g :: gs) :
    splitSep c (x :: xs) = (x :: g) :: gs := by
  rw [splitSep_cons_eq, hxs]
  simp [h]

theorem splitSep_dest (c : Char) (l : List Char) :
    ∃ g gs, splitSep c l = g :: gs := by
  cases hl : splitSep c l with
  | nil => exact absurd hl (splitSep_ne_nil c l)
  | cons g gs => exact ⟨g, gs, rfl⟩

theorem splitSep_append_cons (c : Char) (a b : List Char) :
    splitSep c (a ++ c :: b) = splitSep c a ++ splitSep c b := by
  induction a with
  | nil =>
    obtain ⟨g, gs, hb⟩ := splitSep_dest c b
    rw [List.nil_append, splitSep_cons_of_eq c b g gs hb, hb]
    rfl
  | cons x xs ih =>
    obtain ⟨g, gs, hxs⟩ := splitSep_dest c xs
    obtain ⟨g2, gs2, hxb⟩ := splitSep_dest c (xs ++ c :: b)
    rw [hxb, hxs] at ih
    rw [show ((g :: gs) ++ splitSep c b) = g :: (gs ++ splitSep c b) from rfl] at ih
    injection ih with ih1 ih2
    by_cases h : x = c
    · rw [h, List.cons_append, splitSep_cons_of_eq c _ g2 gs2 hxb,
        splitSep_cons_of_eq c xs g gs hxs, ih1, ih2]
      rfl
    · rw [List.cons_append, splitSep_cons_of_ne c x _ g2 gs2 h hxb,
        splitSep_cons_of_ne c x xs g gs h hxs, ih1, ih2]
      rfl

theorem splitSep_sepFree (c : Char) (l : List Char) (h : c ∉ l) :
    splitSep c l = [l] := by
  induction l with
  | nil => rfl
  | cons x xs ih =>
    have hxs : splitSep c xs = [xs] := ih (fun hc => h (List.mem_cons_of_mem _ hc))
    exact splitSep_cons_of_ne c x xs xs []
      (fun hc : x = c => h (hc ▸ List.mem_cons_self x xs)) hxs

theorem splitSep_mem_sepFree (c : Char) (l : List Char) (p : List Char)
    (hp : p ∈ splitSep c l) : c ∉ p := by
  induction l generalizing p with
  | nil =>
    simp only [splitSep, List.mem_singleton] at hp
    rw [hp]
    simp
  | cons x xs ih =>
    obtain ⟨g, gs, hxs⟩ := splitSep_dest c xs
    by_cases h : x = c
    · rw [h, splitSep_cons_of_eq c xs g gs hxs] at hp
      rcases List.mem_cons.mp hp with hp | hp
      · rw [hp]
        simp
      · exact ih p (hxs ▸ hp)
    · rw [splitSep_cons_of_ne c x xs g gs h hxs] at hp
      rcases List.mem_cons.mp hp with hp | hp
      · rw [hp]
        intro hc
        rcases List.mem_cons.mp hc with hc | hc
        · exact h hc.symm
        · exact ih g (hxs ▸ List.mem_cons_self g gs) hc
      · exact ih p (hxs ▸ List.mem_cons_of_mem g hp)

def joinSep (c : Char) : List (List Char) → List Char
  | [] => []
  | [l] => l
  | l :: l' :: ls => l ++ c :: joinSep c (l' :: ls)

theorem joinSep_cons_cons (c : Char) (l l' : List Char) (ls : List (List Char)) :
    joinSep c (l :: l' :: ls) = l ++ c :: joinSep c (l' :: ls) := rfl

theorem joinSep_append (c : Char) (a b : List (List Char))
    (ha : a ≠ []) (hb : b ≠ []) :
    joinSep c (a ++ b) = joinSep c a ++ c :: joinSep c b := by
  induction a with
  | nil => cases ha rfl
  | cons x xs ih =>
    cases xs with
    | nil =>
      cases b with
      | nil => cases hb rfl
      | cons y ys => rfl
    | cons x' xs' =>
      have ih' : joinSep c (x' :: (xs' ++ b)) = joinSep c (x' :: xs') ++ c :: joinSep c b :=
        ih (by simp)
      rw [show (x :: x' :: xs') ++ b = x :: x' :: (xs' ++ b) from rfl,
        joinSep_cons_cons, ih', joinSep_cons_cons]
      simp [List.append_assoc]

theorem splitSep_joinSep (c : Char) (ls : List (List Char))
    (h : ∀ l ∈ ls, c ∉ l) (hne : ls ≠ []) :
    splitSep c (joinSep c ls) = ls := by
  induction ls with
  | nil => cases hne rfl
  | cons l ls ih =>
    cases ls with
    | nil => exact splitSep_sepFree c l (h l (List.mem_cons_self _ _))
    | cons l' ls' =>
      rw [joinSep_cons_cons, splitSep_append_cons,
        splitSep_sepFree c l (h l (List.mem_cons_self _ _)),
        ih (fun x hx => h x (List.mem_cons_of_mem _ hx)) (by simp)]
      rfl

/-! ## takeWhile / dropWhile / strip lemmas -/

theorem takeWhile_append_head_neg {α : Type} {p : α → Bool} (a : List α) (y : α)
    (b : List α) (ha : ∀ x ∈ a, p x = true) (hy : p y = false) :
    (a ++ y :: b).takeWhile p = a := by
  induction a with
  | nil => simp [List.takeWhile_cons, hy]
  | cons x xs ih =>
    have hx : p x = true := ha x (List.mem_cons_self _ _)
    rw [List.cons_append, List.takeWhile_cons, hx]
    simp only [if_true]
    rw [ih (fun z hz => ha z (List.mem_cons_of_mem _ hz))]

theorem dropWhile_append_head_neg {α : Type} {p : α → Bool} (a : List α) (y : α)
    (b : List α) (ha : ∀ x ∈ a, p x = true) (hy : p y = false) :
    (a ++ y :: b).dropWhile p = y :: b := by
  induction a with
  | nil => simp [List.dropWhile_cons, hy]
  | cons x xs ih =>
    have hx : p x = true := ha x (List.mem_cons_self _ _)
    rw [List.cons_append, List.dropWhile_cons, hx]
    simp only [if_true]
    exact ih (fun z hz => ha z (List.mem_cons_of_mem _ hz))

theorem dropWhile_all_nil {α : Type} {p : α → Bool} (a : List α)
    (ha : ∀ x ∈ a, p x = true) : a.dropWhile p = [] := by
  induction a with
  | nil => rfl
  | cons x xs ih =>
    rw [List.dropWhile_cons, ha x (List.mem_cons_self _ _)]
    simp only [if_true]
    exact ih (fun z hz => ha z (List.mem_cons_of_mem _ hz))

theorem dropWhile_cons_neg {α : Type} {p : α → Bool} (x : α) (l : List α)
    (hx : p x = false) : (x :: l).dropWhile p = x :: l := by
  rw [List.dropWhile_cons, hx]
  simp

theorem lstrip_ws_append (ws l : List Char) (h : ∀ x ∈ ws, isWS x = true) :
    lstrip (ws ++ l) = lstrip l := by
  induction ws with
  | nil => rfl
  | cons x xs ih =>
    show ((x :: xs) ++ l).dropWhile isWS = _
    rw [List.cons_append, List.dropWhile_cons, h x (List.mem_cons_self _ _)]
    simp only [if_true]
    exact ih (fun z hz => h z (List.mem_cons_of_mem _ hz))

theorem lstrip_cons_neg (x : Char) (l : List Char) (hx : isWS x = false) :
    lstrip (x :: l) = x :: l := dropWhile_cons_neg x l hx

theorem rstrip_append_ws (a ws : List Char) (h : ∀ x ∈ ws, isWS x = true) :
    rstrip (a ++ ws) = rstrip a := by
  unfold rstrip
  rw [List.reverse_append]
  rw [show (ws.reverse ++ a.reverse).dropWhile isWS = (a.reverse).dropWhile isWS from
    lstrip_ws_append ws.reverse a.reverse (fun x hx => h x (List.mem_reverse.mp hx))]

theorem rstrip_append_cons_neg (a : List Char) (z : Char) (ws : List Char)
    (hz : isWS z = false) (hws : ∀ x ∈ ws, isWS x = true) :
    rstrip (a ++ z :: ws) = a ++ [z] := by
  unfold rstrip
  rw [List.reverse_append, List.reverse_cons]
  rw [show (ws.reverse ++ [z]) ++ a.reverse = ws.reverse ++ z :: a.reverse by simp]
  rw [dropWhile_append_head_neg ws.reverse z a.reverse
    (fun x hx => hws x (List.mem_reverse.mp hx)) hz]
  simp

theorem rstrip_last_neg (a : List Char) (z : Char) (hz : isWS z = false) :
    rstrip (a ++ [z]) = a ++ [z] := by
  have := rstrip_append_cons_neg a z [] hz (by simp)
  simpa using this

theorem rstrip_nil : rstrip [] = [] := rfl

theorem rstrip_ws_nil (ws : List Char) (h : ∀ x ∈ ws, isWS x = true) :
    rstrip ws = [] := by
  have := rstrip_append_ws [] ws h
  simpa using this

/-- `lstrip`, `rstrip` and `strip` only shorten the list. -/
theorem lstrip_length_le (l : List Char) : (lstrip l).length ≤ l.length :=
  (List.dropWhile_sublist isWS).length_le

theorem rstrip_length_le (l : List Char) : (rstrip l).length ≤ l.length := by
  unfold rstrip
  calc ((l.reverse.dropWhile isWS).reverse).length
      = (l.reverse.dropWhile isWS).length := List.length_reverse _
    _ ≤ l.reverse.length := (List.dropWhile_sublist isWS).length_le
    _ = l.length := List.length_reverse _

/-- Splitting off the last character of a nonempty list. -/
theorem exists_last (l : List Char) (h : l ≠ []) : ∃ a z, l = a ++ [z] := by
  cases hr : l.reverse with
  | nil =>
    exact absurd (by simpa using congrArg List.reverse hr) h
  | cons z t =>
    refine ⟨t.reverse, z, ?_⟩
    have := congrArg List.reverse hr
    simpa using this

/-- A list fixed by `rstrip` is empty or ends in a non-whitespace char. -/
theorem rstrip_fix_last (l : List Char) (h : rstrip l = l) (hne : l ≠ []) :
    ∃ a z, l = a ++ [z] ∧ isWS z = false := by
  obtain ⟨a, z, hl⟩ := exists_last l hne
  refine ⟨a, z, hl, ?_⟩
  cases hz : isWS z with
  | false => rfl
  | true =>
    exfalso
    have h1 : rstrip l = rstrip a := by
      rw [hl]
      exact rstrip_append_ws a [z] (by intro x hx; simp at hx; rw [hx]; exact hz)
    rw [h, hl] at h1
    have h2 := congrArg List.length h1
    have h3 : (rstrip a).length ≤ a.length := rstrip_length_le a
    rw [List.length_append] at h2
    simp at h2
    omega

/-- A `strip`-fixed list is fixed by both one-sided strips. -/
theorem strip_fix (l : List Char) (h : strip l = l) :
    lstrip l = l ∧ rstrip l = l := by
  have h1 : (strip l).length ≤ (rstrip l).length := lstrip_length_le (rstrip l)
  have h2 : (rstrip l).length ≤ l.length := rstrip_length_le l
  have h3 : (strip l).length = l.length := by rw [h]
  have h4 : (rstrip l).length = l.length := by omega
  have h5 : rstrip l = l := by
    have h6 : (l.reverse.dropWhile isWS).length = l.reverse.length := by
      have h7 : ((l.reverse.dropWhile isWS).reverse).length = l.length := h4
      rw [List.length_reverse] at h7
      rw [List.length_reverse]
      exact h7
    have h8 := (List.dropWhile_sublist (l := l.reverse) isWS).eq_of_length h6
    show (l.reverse.dropWhile isWS).reverse = l
    rw [h8, List.reverse_reverse]
  refine ⟨?_, h5⟩
  have h9 : strip l = lstrip l := by
    rw [show strip l = lstrip (rstrip l) from rfl, h5]
  rw [← h9, h]

/-! ## Timestamp, clock and property lines -/

def upperStr (s : String) : String := ⟨s.data.map Char.toUpper⟩

/-- `f"<{self.timestamp.strftime('%Y-%m-%d %H:%M')}>"`. -/
def fmtTs (t : DateTime) : List Char :=
  '<' :: (pad4 t.year ++ '-' :: pad2 t.month ++ '-' :: pad2 t.day ++
    ' ' :: pad2 t.hour ++ ':' :: pad2 t.minute ++ ['>'])

/-- The bracketed active-timestamp pattern
`^\s*<\d{4}-\d{2}-\d{2}\s+\d{2}:\d{2}>\s*$` applied to an
already-stripped line; also the timestamp format the parsing library
extracts (spec section 6). The strptime round trip inside
`OrgFile.from_file` (str and `"<%Y-%m-%d %a %H:%M>"`) is the identity on
these components, so the parse yields the components directly. -/
def tsCore (l : List Char) : Option DateTime :=
  match l with
  | '<' :: y1 :: y2 :: y3 :: y4 :: '-' :: m1 :: m2 :: '-' :: d1 :: d2 :: rest =>
    if (rest.takeWhile isWS).length = 0 then none
    else
      match rest.dropWhile isWS with
      | h1 :: h2 :: ':' :: n1 :: n2 :: '>' :: tail =>
        if tail = [] then
          match parse4 y1 y2 y3 y4, parse2 m1 m2, parse2 d1 d2,
                parse2 h1 h2, parse2 n1 n2 with
          | some y, some mo, some dd, some hh, some mi =>
            some ⟨y, mo, dd, hh, mi, 0⟩
          | _, _, _, _, _ => none
        else none
      | _ => none
  | _ => none

/-- Sakamoto's day-of-week formula (0 = Sunday); implements strftime `%a`. -/
def dayOfWeekNum (y m d : Nat) : Nat :=
  let t := [0, 3, 2, 5, 0, 3, 5, 1, 4, 6, 2, 4]
  let y' := if m < 3 then y - 1 else y
  (y' + y' / 4 - y' / 100 + y' / 400 + t.getD (m - 1) 0 + d) % 7

def weekdayAbbrev (y m d : Nat) : List Char :=
  match dayOfWeekNum y m d with
  | 0 => "Sun".data | 1 => "Mon".data | 2 => "Tue".data | 3 => "Wed".data
  | 4 => "Thu".data | 5 => "Fri".data | _ => "Sat".data

/-- `strftime("[%Y-%m-%d %a %H:%M]")`. -/
def fmtClockTs (t : DateTime) : List Char :=
  '[' :: (pad4 t.year ++ '-' :: pad2 t.month ++ '-' :: pad2 t.day ++
    ' ' :: (weekdayAbbrev t.year t.month t.day ++
    ' ' :: pad2 t.hour ++ ':' :: pad2 t.minute ++ [']']))

def intChars (i : Int) : List Char :=
  if i < 0 then '-' :: natChars (-i).toNat else natChars i.toNat

/-- `_format_duration`: total minutes via floor division, then
`divmod(total_minutes, 60)` rendered `H:MM`. -/
def fmtDuration (secs : Int) : List Char :=
  let tm := Int.fdiv secs 60
  let hours := Int.fdiv tm 60
  let minutes := Int.emod tm 60
  intChars hours ++ ':' :: pad2 minutes.toNat

/-- `OrgClock.to_org_string`: empty end bracket when the end time is
absent, duration suffix only when the duration is truthy (nonzero). -/
def clockToOrgString (c : OrgClock) : List Char :=
  "CLOCK: ".data ++ fmtClockTs c.start_time ++ "--".data ++
  (match c.end_time with
   | some e => fmtClockTs e
   | none => []) ++
  (match c.duration with
   | some dsec => if dsec ≠ 0 then " => ".data ++ fmtDuration dsec else []
   | none => [])

/-- Modelled from the spec: the parsing library's clock-bracket reader
(`[YYYY-MM-DD Dow HH:MM]`, spec sections 4.5 and 6); the weekday
abbreviation is a fixed-width three-character token that is skipped. -/
def parseClockBracket (l : List Char) : Option (DateTime × List Char) :=
  match l with
  | '[' :: y1 :: y2 :: y3 :: y4 :: '-' :: m1 :: m2 :: '-' :: d1 :: d2 :: ' ' :: rest =>
    match rest.drop 3 with
    | ' ' :: h1 :: h2 :: ':' :: n1 :: n2 :: ']' :: tail =>
      match parse4 y1 y2 y3 y4, parse2 m1 m2, parse2 d1 d2,
            parse2 h1 h2, parse2 n1 n2 with
      | some y, some mo, some dd, some hh, some mi =>
        some (⟨y, mo, dd, hh, mi, 0⟩, tail)
      | _, _, _, _, _ => none
    | _ => none
  | _ => none

/-- Modelled from the spec: a `CLOCK: [start]--[end] => H:MM` line with
an optional end bracket (spec section 6), yielding the start time and
optional end time consumed by `OrgFile.from_file`. -/
def parseClockLine (l : List Char) : Option (DateTime × Option DateTime) :=
  match l with
  | 'C' :: 'L' :: 'O' :: 'C' :: 'K' :: ':' :: ' ' :: rest =>
    match parseClockBracket rest with
    | some (st, rest2) =>
      match rest2 with
      | '-' :: '-' :: rest3 =>
        match parseClockBracket rest3 with
        | some (en, _) => some (st, some en)
        | none => some (st, none)
      | _ => none
    | none => none
  | _ => none

/-- `f":{key.upper()}: {value}"`. -/
def propLineOf (p : String × String) : List Char :=
  ':' :: ((upperStr p.1).data ++ ':' :: ' ' :: p.2.data)

/-- Modelled from the spec: a `:KEY: value` property-drawer line
(spec section 6): key up to the next colon, one space, then the value. -/
def parsePropLine (l : List Char) : Option (String × String) :=
  match l with
  | ':' :: rest =>
    let key := rest.takeWhile (fun c => decide (c ≠ ':'))
    match rest.dropWhile (fun c => decide (c ≠ ':')) with
    | ':' :: rest2 =>
      if key = [] then none
      else
        match rest2 with
        | ' ' :: v => some (⟨key⟩, ⟨v⟩)
        | v => some (⟨key⟩, ⟨v⟩)
    | _ => none
  | _ => none

theorem strip_stripped_cons_space (v : List Char) (hv : strip v = v) :
    strip (' ' :: v) = v := by
  by_cases hne : v = []
  · rw [hne]
    rfl
  · obtain ⟨hl, hr⟩ := strip_fix v hv
    obtain ⟨a, z, hvz, hz⟩ := rstrip_fix_last v hr hne
    show lstrip (rstrip (' ' :: v)) = v
    rw [hvz, show (' ' :: (a ++ [z])) = (' ' :: a) ++ [z] from rfl,
      rstrip_last_neg (' ' :: a) z hz,
      show (' ' :: a) ++ [z] = ' ' :: (a ++ [z]) from rfl, ← hvz]
    rw [show lstrip (' ' :: v) = lstrip v from
      lstrip_ws_append [' '] v (by intro x hx; simp at hx; rw [hx]; rfl)]
    exact hl

/-! ## Weekday facts -/

theorem weekdayAbbrev_len (y m d : Nat) : (weekdayAbbrev y m d).length = 3 := by
  unfold weekdayAbbrev
  rcases dayOfWeekNum y m d with _ | _ | _ | _ | _ | _ | w <;> rfl

theorem weekdayAbbrev_noNL (y m d : Nat) : '\n' ∉ weekdayAbbrev y m d := by
  unfold weekdayAbbrev
  rcases dayOfWeekNum y m d with _ | _ | _ | _ | _ | _ | w
  · decide
  · decide
  · decide
  · decide
  · decide
  · decide
  · show '\n' ∉ "Sat".data
    decide

/-! ## Line round trips -/

theorem tsCore_fmtTs (t : DateTime) (hy : t.year < 10000) (hmo : t.month < 100)
    (hd : t.day < 100) (hh : t.hour < 100) (hmi : t.minute < 100)
    (hs : t.second = 0) :
    tsCore (fmtTs t) = some t := by
  obtain ⟨y, mo, d, h, mi, s⟩ := t
  simp only at hy hmo hd hh hmi hs
  subst hs
  have hws : isWS ' ' = true := rfl
  have hd1 : isWS (digitChar (h / 10)) = false := (digitChar_props _).1
  simp only [fmtTs, pad4, pad2, List.cons_append, List.nil_append, tsCore,
    List.takeWhile_cons, List.dropWhile_cons, hws, hd1, if_true, if_false,
    Bool.false_eq_true, List.takeWhile_nil, List.length_cons, List.length_nil]
  simp only [parse4_pad4 y hy, parse2_pad2 mo hmo, parse2_pad2 d hd,
    parse2_pad2 h hh, parse2_pad2 mi hmi]
  simp

theorem parseClockBracket_fmt (t : DateTime) (tail : List Char)
    (hy : t.year < 10000) (hmo : t.month < 100) (hd : t.day < 100)
    (hh : t.hour < 100) (hmi : t.minute < 100) (hs : t.second = 0) :
    parseClockBracket (fmtClockTs t ++ tail) = some (t, tail) := by
  obtain ⟨y, mo, d, h, mi, s⟩ := t
  simp only at hy hmo hd hh hmi hs
  subst hs
  simp only [fmtClockTs, pad4, pad2, List.cons_append, List.nil_append,
    List.append_assoc]
  simp only [parseClockBracket]
  rw [show (3 : Nat) = (weekdayAbbrev y mo d).length from (weekdayAbbrev_len y mo d).symm,
    List.drop_left]
  simp only [List.cons_append, List.nil_append]
  simp only [parse4_pad4 y hy, parse2_pad2 mo hmo, parse2_pad2 d hd,
    parse2_pad2 h hh, parse2_pad2 mi hmi]

theorem parsePropLine_round (k v : String) (hk : k.data ≠ [])
    (hku : upperStr k = k) (hkc : ':' ∉ k.data) :
    parsePropLine (propLineOf (k, v)) = some (k, v) := by
  have h1 : propLineOf (k, v) = ':' :: (k.data ++ ':' :: ' ' :: v.data) := by
    unfold propLineOf
    rw [show (upperStr k).data = k.data from congrArg String.data hku]
  rw [h1]
  simp only [parsePropLine]
  rw [takeWhile_append_head_neg k.data ':' (' ' :: v.data)
    (fun x hx => by simp; exact fun hc => hkc (hc ▸ hx)) (by simp)]
  rw [dropWhile_append_head_neg k.data ':' (' ' :: v.data)
    (fun x hx => by simp; exact fun hc => hkc (hc ▸ hx)) (by simp)]
  simp [hk]

theorem clockPre : ("CLOCK: ".data : List Char) = ['C', 'L', 'O', 'C', 'K', ':', ' '] := rfl

theorem dashdash : ("--".data : List Char) = ['-', '-'] := rfl

/-- Bounds under which the rendered forms parse back. -/
def dtOk (t : DateTime) : Bool :=
  decide (1000 ≤ t.year) && decide (t.year ≤ 9999) && decide (1 ≤ t.month) &&
  decide (t.month ≤ 12) && decide (1 ≤ t.day) && decide (t.day ≤ 31) &&
  decide (t.hour ≤ 23) && decide (t.minute ≤ 59) && decide (t.second = 0)

theorem dtOk_bounds (t : DateTime) (h : dtOk t = true) :
    t.year < 10000 ∧ t.month < 100 ∧ t.day < 100 ∧ t.hour < 100 ∧
    t.minute < 100 ∧ t.second = 0 := by
  unfold dtOk at h
  simp only [Bool.and_eq_true, decide_eq_true_eq] at h
  omega

theorem parseClockLine_round (st : DateTime) (e : Option DateTime)
    (hst : dtOk st = true) (he : ∀ x, e = some x → dtOk x = true) :
    parseClockLine (clockToOrgString (OrgClock.make st e)) = some (st, e) := by
  obtain ⟨h1, h2, h3, h4, h5, h6⟩ := dtOk_bounds st hst
  cases e with
  | none =>
    have h0 : clockToOrgString (OrgClock.make st none) =
        ['C', 'L', 'O', 'C', 'K', ':', ' '] ++ (fmtClockTs st ++ ('-' :: '-' :: [])) := by
      show "CLOCK: ".data ++ fmtClockTs st ++ "--".data ++ [] ++ [] = _
      rw [clockPre, dashdash]
      simp [List.append_assoc]
    rw [h0]
    simp only [List.cons_append, List.nil_append, parseClockLine]
    rw [parseClockBracket_fmt st ['-', '-'] h1 h2 h3 h4 h5 h6]
    rfl
  | some en =>
    obtain ⟨e1, e2, e3, e4, e5, e6⟩ := dtOk_bounds en (he en rfl)
    have h0 : clockToOrgString (OrgClock.make st (some en)) =
        ['C', 'L', 'O', 'C', 'K', ':', ' '] ++ (fmtClockTs st ++ ('-' :: '-' ::
          (fmtClockTs en ++
            (if (dtToSec en - dtToSec st) ≠ 0 then
              " => ".data ++ fmtDuration (dtToSec en - dtToSec st) else [])))) := by
      show "CLOCK: ".data ++ fmtClockTs st ++ "--".data ++ fmtClockTs en ++ _ = _
      rw [clockPre, dashdash]
      simp [OrgClock.make, List.append_assoc]
    rw [h0]
    generalize (if dtToSec en - dtToSec st ≠ 0 then
      " => ".data ++ fmtDuration (dtToSec en - dtToSec st) else ([] : List Char)) = suffix
    rw [show (['C', 'L', 'O', 'C', 'K', ':', ' '] : List Char) ++
        (fmtClockTs st ++ '-' :: '-' :: (fmtClockTs en ++ suffix)) =
      'C' :: 'L' :: 'O' :: 'C' :: 'K' :: ':' :: ' ' ::
        (fmtClockTs st ++ '-' :: '-' :: (fmtClockTs en ++ suffix)) from rfl]
    show (match parseClockBracket (fmtClockTs st ++ '-' :: '-' :: (fmtClockTs en ++ suffix)) with
      | some (st', rest2) =>
        match rest2 with
        | '-' :: '-' :: rest3 =>
          match parseClockBracket rest3 with
          | some (en', _) => some (st', some en')
          | none => some (st', none)
        | _ => none
      | none => none) = some (st, some en)
    rw [parseClockBracket_fmt st ('-' :: '-' :: (fmtClockTs en ++ suffix)) h1 h2 h3 h4 h5 h6]
    show (match parseClockBracket (fmtClockTs en ++ suffix) with
      | some (en', _) => some (st, some en')
      | none => some (st, none)) = some (st, some en)
    rw [parseClockBracket_fmt en suffix e1 e2 e3 e4 e5 e6]

/-! ## Node rendering (orgnode.py `to_org_string` / `to_file`) -/

/-- The heading line: `f"{'*' * level} {todo} {heading}"` (keyword only
when truthy) with `f"  :{':'.join(tags)}:"` appended when tags are
truthy. -/
def headingLineOf (n : OrgNode) : List Char :=
  (List.replicate n.level '*') ++ ' ' ::
    ((match n.todo with
      | some td => if td ≠ "" then td.data ++ [' '] else []
      | none => []) ++ n.heading.data) ++
  (match n.tags with
   | some ts =>
     if ts ≠ [] then
       ' ' :: ' ' :: ':' :: (joinSep ':' (ts.map String.data) ++ [':'])
     else []
   | none => [])

/-- Python `str.splitlines()` (no trailing empty piece for a final
newline; the strings involved contain no other line separators). -/
def pySplitlines (s : String) : List (List Char) :=
  match s.data with
  | [] => []
  | l => if l.getLast? = some '\n' then (splitSep '\n' l).dropLast else splitSep '\n' l

/-- The filtered, indented body lines: every line that is exactly a
bracketed active timestamp is removed, the rest are stripped and
indented by `level` spaces. -/
def bodyLinesOf (n : OrgNode) : List (List Char) :=
  match n.body with
  | some b =>
    if b ≠ "" then
      (pySplitlines b).filterMap (fun line =>
        if (tsCore (strip line)).isSome then none
        else some (List.replicate n.level ' ' ++ strip line))
    else []
  | none => []

/-- The timestamp line (when the timestamp is truthy). -/
def tsLinesOf (n : OrgNode) : List (List Char) :=
  match n.timestamp with
  | some t => [fmtTs t]
  | none => []

/-- The `:LOGBOOK:` block (when the clocks list is truthy). -/
def clockBlockOf (n : OrgNode) : List (List Char) :=
  match n.clocks with
  | some cs =>
    if cs ≠ [] then
      [":LOGBOOK:".data] ++ cs.map clockToOrgString ++ [":END:".data]
    else []
  | none => []

/-- The `:PROPERTIES:` block (when the properties mapping is truthy). -/
def propBlockOf (n : OrgNode) : List (List Char) :=
  match n.properties with
  | some ps =>
    if ps ≠ [] then
      [":PROPERTIES:".data] ++ ps.map propLineOf ++ [":END:".data]
    else []
  | none => []

/-- The single-line elements of the Python `lines` list (everything but
the body chunk). -/
def structLinesOf (n : OrgNode) : List (List Char) :=
  (if n.heading ≠ "" then
    [headingLineOf n] ++ tsLinesOf n ++ clockBlockOf n
  else []) ++ propBlockOf n

/-- The Python `lines` list of `to_org_string`; the body becomes one
multi-line element with a trailing newline. -/
def nodeElems (n : OrgNode) : List (List Char) :=
  structLinesOf n ++
  (if bodyLinesOf n ≠ [] then [joinSep '\n' (bodyLinesOf n) ++ ['\n']] else [])

/-- `OrgNode.to_org_string`: `"\n".join(lines)`. -/
def to_org_string (n : OrgNode) : List Char := joinSep '\n' (nodeElems n)

/-- `OrgFile.to_file`: the root's rendering followed by each child's,
written consecutively with no separator. -/
def to_file (f : OrgFile) : String :=
  ⟨to_org_string f.root ++ (f.children.map to_org_string).join⟩

/-! ## The outline-text parser

Modelled from the spec: the parsing library (orgparse) is a vendored
third-party dependency not under src/, so the line grammar follows
sections 4.5 and 6 of the spec (heading lines of `*`s with an optional
status keyword and trailing tag list, an optional bracketed active
timestamp line, `:LOGBOOK:`/`:END:` and `:PROPERTIES:`/`:END:` drawers,
remaining lines free-text body). `OrgFile.from_file`'s own
post-processing (the `CANCELLED` heading prefix, clock construction,
the `if node.clock else None` defaults) follows src/orgnode.py; the
strptime/str round trips it performs on timestamps are the identity on
the calendar components. -/

def isHeadingLine (l : List Char) : Bool :=
  match l with
  | '*' :: _ => decide ((l.dropWhile (fun c => c = '*')).head? = some ' ')
  | _ => false

/-- The final whitespace-separated token of the right-stripped line. -/
def lastTok (m : List Char) : List Char :=
  ((rstrip m).reverse.takeWhile (fun c => !(isWS c))).reverse

/-- The token has the `:seg:...:seg:` shape of a tag list. -/
def tokIsTag (tok : List Char) : Bool :=
  decide (tok.length ≥ 2) && decide (tok.head? = some ':') &&
  decide (tok.getLast? = some ':') &&
  (splitSep ':' ((tok.drop 1).dropLast)).all (fun s => decide (s ≠ []))

/-- Trailing colon-delimited tag list: the final whitespace-separated
token, when it is `:seg:...:seg:` with nonempty segments and preceded by
whitespace, is split off as the tags. -/
def tagSplit (m : List Char) : List Char × Option (List String) :=
  let r := rstrip m
  let tok := lastTok m
  let pre := (r.reverse.dropWhile (fun c => !(isWS c))).reverse
  if tok.length ≥ 2 ∧ tok.head? = some ':' ∧ tok.getLast? = some ':' ∧ pre ≠ [] then
    let segs := splitSep ':' ((tok.drop 1).dropLast)
    if segs.all (fun s => decide (s ≠ [])) then
      (rstrip pre, some (segs.map (fun s => (⟨s⟩ : String))))
    else (r, none)
  else (r, none)

/-- Leading recognized status keyword, split off the rest of the line. -/
def kwSplit (rest : List Char) : Option String × List Char :=
  if ("TODO ".data).isPrefixOf rest then (some "TODO", rest.drop 5)
  else if ("DONE ".data).isPrefixOf rest then (some "DONE", rest.drop 5)
  else (none, rest)

/-- Heading line fields: level, recognized status keyword, heading text,
tags. -/
def parseHeadingLine (l : List Char) : Nat × Option String × String × Option (List String) :=
  let stars := l.takeWhile (fun c => c = '*')
  let rest := lstrip (l.dropWhile (fun c => c = '*'))
  let kw := kwSplit rest
  let ts := tagSplit kw.2
  (stars.length, kw.1, ⟨ts.1⟩, ts.2)

def groupStep (l : List Char) (acc : List (List Char) × List (List (List Char))) :
    List (List Char) × List (List (List Char)) :=
  if isHeadingLine l then ([], (l :: acc.1) :: acc.2) else (l :: acc.1, acc.2)

/-- Split the post-preamble lines into one group per heading line. -/
def groupEntries (ls : List (List Char)) : List (List (List Char)) :=
  (ls.foldr groupStep ([], [])).2

/-- Cut a `marker` ... `:END:` drawer out of the lines, returning its
contents (if the marker occurs) and the remaining lines. -/
def cutDrawer (marker : List Char) (ls : List (List Char)) :
    Option (List (List Char)) × List (List Char) :=
  let pre := ls.takeWhile (fun l => decide (l ≠ marker))
  match ls.dropWhile (fun l => decide (l ≠ marker)) with
  | [] => (none, ls)
  | _ :: post =>
    let region := post.takeWhile (fun l => decide (l ≠ ":END:".data))
    let rest := (post.dropWhile (fun l => decide (l ≠ ":END:".data))).tail
    (some region, pre ++ rest)

/-- The clock construction of `OrgFile.from_file` (orgnode.py line 169):
`OrgClock(start=str(clock.start), end=str(clock.end))` for each parsed
clock. When the clock has no end time, `str(clock.end)` is the TRUTHY
string `"None"`, so `OrgClock.__init__` passes it to
`_convert_to_datetime`, whose
`strptime("None", "%Y-%m-%d %H:%M:%S")` raises ValueError: an end-less
clock line aborts `from_file`. Only end-carrying clocks construct; for
those the str/strptime round trip is the identity on the components. -/
def buildClocks : List (DateTime × Option DateTime) → Except Unit (List OrgClock)
  | [] => .ok []
  | p :: ps =>
    match p.2 with
    | some e =>
      match buildClocks ps with
      | .ok cs => .ok (OrgClock.make p.1 (some e) :: cs)
      | .error u => .error u
    | none => .error ()

/-- One parsed entry: the heading line plus the entry's remaining lines,
composed with `OrgFile.from_file`'s per-node post-processing, including
the fallible clock construction (an end-less clock line raises). -/
def parseEntryNode (g : List (List Char)) : Except Unit OrgNode :=
  match g with
  | [] => .ok { heading := "" }
  | hl :: body0 =>
    let ph := parseHeadingLine hl
    let cut1 := cutDrawer ":LOGBOOK:".data body0
    let cut2 := cutDrawer ":PROPERTIES:".data cut1.2
    let ts := cut2.2.findSome? (fun l => tsCore (strip l))
    let hd :=
      if ("CANCELLED".data).isPrefixOf ph.2.2.1.data then
        ((⟨strip (ph.2.2.1.data.drop 9)⟩ : String), some "CANCELLED")
      else (ph.2.2.1, ph.2.1)
    let clocksE : Except Unit (Option (List OrgClock)) :=
      match cut1.1 with
      | some region =>
        let cs := region.filterMap parseClockLine
        if cs ≠ [] then
          match buildClocks cs with
          | .ok built => .ok (some built)
          | .error u => .error u
        else .ok none
      | none => .ok none
    match clocksE with
    | .ok clks =>
      .ok
        { heading := hd.1, todo := hd.2, tags := ph.2.2.2,
          properties := cut2.1.map (fun region => region.filterMap parsePropLine),
          body := some ⟨joinSep '\n' (cut2.2.filterMap (fun l =>
            if (tsCore (strip l)).isSome then none else some l))⟩,
          timestamp := ts,
          clocks := clks,
          level := ph.1 }
    | .error u => .error u

/-- Success projection of `parseEntryNode` (the ValueError path of the
clock construction collapsed to an empty node). Retained only for the
total document parse behind the path-boundary model `from_file`, whose
subject is the missing-file branch; the faithful, fallible document
parse is `parseOrgNodes`/`parseOrgDoc`. -/
def parseEntryGroup (g : List (List Char)) : OrgNode :=
  match parseEntryNode g with
  | .ok n => n
  | .error _ => { heading := "" }

/-- The document preamble before the first heading becomes the root. -/
def parsePre (pre : List (List Char)) : OrgNode :=
  let cutp := cutDrawer ":PROPERTIES:".data pre
  { heading := "", todo := none, tags := none,
    properties := cutp.1.map (fun region => region.filterMap parsePropLine),
    body := some ⟨joinSep '\n' cutp.2⟩, timestamp := none, clocks := none,
    level := 0 }

def parseOrgChars (content : List Char) : OrgFile :=
  let lines := splitSep '\n' content
  let pre := lines.takeWhile (fun l => !(isHeadingLine l))
  let rest := lines.dropWhile (fun l => !(isHeadingLine l))
  { root := parsePre pre,
    children := (groupEntries rest).map parseEntryGroup }

/-- Parse of the outline text (`orgparse.load` composed with
`OrgFile.from_file`'s per-node construction). -/
def parseOrgText (s : String) : OrgFile := parseOrgChars s.data

/-- `OrgFile.from_file` at the file-system boundary: `load(orgfile)`
opens the path unconditionally; a missing file raises
(FileNotFoundError), which no caller in main.py handles. -/
def from_file (content : Option String) : Except Unit OrgFile :=
  match content with
  | none => .error ()
  | some s => .ok (parseOrgText s)

/-- `OrgFile.from_file`'s per-node loop over the parsed entries with the
fallible clock construction: the ValueError of the first end-less clock
propagates (the list comprehension of orgnode.py line 169 raises there
and the remaining nodes are never built). -/
def parseEntriesList : List (List (List Char)) → Except Unit (List OrgNode)
  | [] => .ok []
  | g :: gs =>
    match parseEntryNode g with
    | .ok n =>
      match parseEntriesList gs with
      | .ok ns => .ok (n :: ns)
      | .error u => .error u
    | .error u => .error u

/-- The document parse with the fallible per-node construction: the
outcome of `OrgFile.from_file` on the file's text, ValueError included. -/
def parseOrgNodes (content : List Char) : Except Unit OrgFile :=
  let lines := splitSep '\n' content
  let pre := lines.takeWhile (fun l => !(isHeadingLine l))
  let rest := lines.dropWhile (fun l => !(isHeadingLine l))
  match parseEntriesList (groupEntries rest) with
  | .ok children => .ok { root := parsePre pre, children := children }
  | .error u => .error u

/-- `OrgFile.from_file` on the text of an existing file. -/
def parseOrgDoc (s : String) : Except Unit OrgFile := parseOrgNodes s.data

/-! ## Representable fields -/

def strNoNL (s : String) : Bool :=
  s.data.all (fun c => decide (c ≠ '\n') && decide (c ≠ '\r'))

/-- Heading text that the outline format can carry faithfully. -/
def headingOk (s : String) : Bool :=
  decide (s ≠ "") && decide (strip s.data = s.data) && strNoNL s &&
  !(("TODO ".data).isPrefixOf s.data) && decide (s ≠ "TODO") &&
  !(("DONE ".data).isPrefixOf s.data) && decide (s ≠ "DONE") &&
  !(("CANCELLED".data).isPrefixOf s.data) &&
  !(tokIsTag (lastTok s.data))

def todoOk (o : Option String) : Bool :=
  match o with
  | none => true
  | some s => decide (s = "TODO") || decide (s = "DONE") || decide (s = "CANCELLED")

def tagOk (s : String) : Bool :=
  decide (s ≠ "") &&
  s.data.all (fun c => !(isWS c) && decide (c ≠ ':') && decide (c ≠ '\n'))

def tagsOk (o : Option (List String)) : Bool :=
  match o with
  | none => true
  | some ts => decide (ts ≠ []) && ts.all tagOk

def keyOk (s : String) : Bool :=
  decide (s ≠ "") && decide (upperStr s = s) &&
  s.data.all (fun c => decide (c ≠ ':') && decide (c ≠ '\n') && decide (c ≠ '\r'))

def propsOk (o : Option (List (String × String))) : Bool :=
  match o with
  | none => true
  | some ps => decide (ps ≠ []) && ps.all (fun p => keyOk p.1 && strNoNL p.2)

def tsFieldOk (o : Option DateTime) : Bool :=
  match o with
  | none => true
  | some t => dtOk t

def clockOk (c : OrgClock) : Bool :=
  dtOk c.start_time &&
  (match c.end_time with
   | some e => dtOk e
   | none => false) &&
  decide (c.duration = c.end_time.map (fun e => dtToSec e - dtToSec c.start_time))

def clocksOk (o : Option (List OrgClock)) : Bool :=
  match o with
  | none => true
  | some cs => decide (cs ≠ []) && cs.all clockOk

def bodyCharsOk (o : Option String) : Bool :=
  match o with
  | none => true
  | some b => b.data.all (fun c => decide (c ≠ '\r'))

/-- All of an entry's fields are representable in the outline text
format. -/
def entryRep (n : OrgNode) : Bool :=
  headingOk n.heading && todoOk n.todo && tagsOk n.tags && propsOk n.properties &&
  tsFieldOk n.timestamp && clocksOk n.clocks && bodyCharsOk n.body &&
  decide (1 ≤ n.level)

/-- The rendered block ends in a newline: the body survives filtering. -/
def entryGlue (n : OrgNode) : Bool := decide (bodyLinesOf n ≠ [])

/-- The root renders to the empty preamble. -/
def rootEmptyRender (r : OrgNode) : Bool :=
  decide (r.heading = "") &&
  (match r.properties with
   | none => true
   | some ps => decide (ps = [])) &&
  (match r.body with
   | none => true
   | some b => decide (b = ""))

/-- The fields named by the round-trip claim. -/
def claimedFields (n : OrgNode) :
    String × Option String × Option (List String) ×
    Option (List (String × String)) × Option DateTime × Option (List OrgClock) :=
  (n.heading, n.todo, n.tags, n.properties, n.timestamp, n.clocks)

/-! ## Additional list toolkit for the round trip -/

theorem fs_cons {α β : Type} (f : α → Option β) (x : α) (xs : List α) :
    (x :: xs).findSome? f =
      match f x with
      | some b => some b
      | none => xs.findSome? f := rfl

theorem filterMap_all_some {α β γ : Type} (f : β → Option γ) (g : α → β) (h : α → γ)
    (l : List α) (hl : ∀ x ∈ l, f (g x) = some (h x)) :
    (l.map g).filterMap f = l.map h := by
  induction l with
  | nil => rfl
  | cons x xs ih =>
    rw [List.map_cons, List.filterMap_cons, hl x (List.mem_cons_self _ _),
      List.map_cons, ih (fun z hz => hl z (List.mem_cons_of_mem _ hz))]

theorem joinSep_mem (c : Char) (x : Char) (ls : List (List Char))
    (hx : x ∈ joinSep c ls) : x = c ∨ ∃ l ∈ ls, x ∈ l := by
  induction ls with
  | nil => cases hx
  | cons l ls ih =>
    cases ls with
    | nil =>
      exact Or.inr ⟨l, List.mem_cons_self _ _, hx⟩
    | cons l' ls' =>
      rw [joinSep_cons_cons] at hx
      rcases List.mem_append.mp hx with hx | hx
      · exact Or.inr ⟨l, List.mem_cons_self _ _, hx⟩
      · rcases List.mem_cons.mp hx with hx | hx
        · exact Or.inl hx
        · rcases ih hx with h | ⟨m, hm, hxm⟩
          · exact Or.inl h
          · exact Or.inr ⟨m, List.mem_cons_of_mem _ hm, hxm⟩

theorem prefix_append_split (p h x : List Char) (hp : p <+: h ++ x) :
    p <+: h ∨ (h.length < p.length ∧ h <+: p ∧ p.drop h.length <+: x) := by
  obtain ⟨s, hs⟩ := hp
  by_cases hlen : p.length ≤ h.length
  · left
    have h2 : (p ++ s).take p.length = p := by
      rw [List.take_append_of_le_length (Nat.le_refl _), List.take_length]
    rw [hs, List.take_append_of_le_length hlen] at h2
    rw [← h2]
    exact List.take_prefix _ _
  · right
    push_neg at hlen
    refine ⟨hlen, ?_, ?_⟩
    · have h2 : (p ++ s).take h.length = p.take h.length :=
        List.take_append_of_le_length (Nat.le_of_lt hlen)
      rw [hs, List.take_append_of_le_length (Nat.le_refl _), List.take_length] at h2
      rw [h2]
      exact List.take_prefix _ _
    · have h2 : (p ++ s).drop h.length = p.drop h.length ++ s :=
        List.drop_append_of_le_length (Nat.le_of_lt hlen)
      rw [hs, List.drop_left] at h2
      exact ⟨s, h2.symm⟩

/-! ## strip facts -/

theorem lstrip_fix_head (l : List Char) (x : Char) (r : List Char)
    (h : lstrip l = l) (hl : l = x :: r) : isWS x = false := by
  subst hl
  cases hx : isWS x with
  | false => rfl
  | true =>
    exfalso
    have h1 : lstrip (x :: r) = lstrip r := lstrip_ws_append [x] r
      (by intro z hz; simp at hz; rw [hz]; exact hx)
    rw [h] at h1
    have h2 := congrArg List.length h1
    have h3 : (lstrip r).length ≤ r.length := lstrip_length_le r
    simp at h2
    omega

theorem lstrip_idem (l : List Char) : lstrip (lstrip l) = lstrip l := by
  induction l with
  | nil => rfl
  | cons x xs ih =>
    show ((x :: xs).dropWhile isWS).dropWhile isWS = (x :: xs).dropWhile isWS
    rw [List.dropWhile_cons]
    cases hx : isWS x with
    | true =>
      simp only [if_true]
      exact ih
    | false =>
      simp only [Bool.false_eq_true, if_false]
      exact dropWhile_cons_neg x xs hx

theorem strip_idem (l : List Char) : strip (strip l) = strip l := by
  by_cases hne : strip l = []
  · rw [hne]
    rfl
  · have hsuf : ∃ t, rstrip l = t ++ strip l := by
      obtain ⟨s, hs⟩ : ∃ s, (rstrip l).dropWhile isWS = s := ⟨_, rfl⟩
      exact ⟨(rstrip l).takeWhile isWS, by
        rw [show strip l = (rstrip l).dropWhile isWS from rfl]
        exact (List.takeWhile_append_dropWhile isWS (rstrip l)).symm⟩
    obtain ⟨t, ht⟩ := hsuf
    have hlast : ∃ a z, strip l = a ++ [z] ∧ isWS z = false := by
      obtain ⟨a, z, haz⟩ := exists_last (strip l) hne
      refine ⟨a, z, haz, ?_⟩
      have hrfix : rstrip (rstrip l) = rstrip l := by
        unfold rstrip
        rw [List.reverse_reverse]
        rw [show ((l.reverse.dropWhile isWS).dropWhile isWS) = l.reverse.dropWhile isWS from
          lstrip_idem l.reverse]
      cases hz : isWS z with
      | false => rfl
      | true =>
        exfalso
        have h1 : rstrip (rstrip l) = rstrip ((t ++ a) ++ [z]) := by
          rw [ht, haz, List.append_assoc]
        rw [hrfix, ht, haz] at h1
        have h2 : rstrip ((t ++ a) ++ [z]) = rstrip (t ++ a) := by
          exact rstrip_append_ws (t ++ a) [z] (by intro u hu; simp at hu; rw [hu]; exact hz)
        rw [h2] at h1
        have h3 := congrArg List.length h1
        have h4 : (rstrip (t ++ a)).length ≤ (t ++ a).length := rstrip_length_le _
        simp [List.length_append] at h3 h4
        omega
    obtain ⟨a, z, haz, hz⟩ := hlast
    show lstrip (rstrip (strip l)) = strip l
    rw [haz, rstrip_last_neg a z hz, ← haz]
    exact lstrip_idem (rstrip l)

theorem strip_indent (ws s : List Char) (hws : ∀ x ∈ ws, isWS x = true)
    (hs : strip s = s) : strip (ws ++ s) = s := by
  by_cases hne : s = []
  · subst hne
    show lstrip (rstrip (ws ++ [])) = []
    rw [List.append_nil, rstrip_ws_nil ws hws]
    rfl
  · obtain ⟨hl, hr⟩ := strip_fix s hs
    obtain ⟨a, z, hsz, hz⟩ := rstrip_fix_last s hr hne
    show lstrip (rstrip (ws ++ s)) = s
    rw [hsz, show ws ++ (a ++ [z]) = (ws ++ a) ++ [z] from (List.append_assoc ws a [z]).symm,
      rstrip_last_neg (ws ++ a) z hz, List.append_assoc, ← hsz,
      lstrip_ws_append ws s hws]
    exact hl

theorem strip_subset (l : List Char) (c : Char) (hc : c ∈ strip l) : c ∈ l := by
  have h1 : c ∈ rstrip l := (List.dropWhile_sublist isWS).subset hc
  have h2 : c ∈ l.reverse.dropWhile isWS := List.mem_reverse.mp h1
  have h3 : c ∈ l.reverse := (List.dropWhile_sublist isWS).subset h2
  exact List.mem_reverse.mp h3

/-! ## Rendered lines contain no newline -/

theorem natCharsAux_noNL (fuel n : Nat) : '\n' ∉ natCharsAux fuel n := by
  induction fuel generalizing n with
  | zero => simp [natCharsAux]
  | succ f ih =>
    unfold natCharsAux
    by_cases h : n < 10
    · rw [if_pos h]
      intro hm
      exact (digitChar_props n).2.1 (List.mem_singleton.mp hm).symm
    · rw [if_neg h]
      intro hm
      rcases List.mem_append.mp hm with hm | hm
      · exact ih (n / 10) hm
      · exact (digitChar_props n).2.1 (List.mem_singleton.mp hm).symm

theorem pad2_noNL (n : Nat) : '\n' ∉ pad2 n := by
  intro hm
  rcases List.mem_cons.mp hm with hm | hm
  · exact (digitChar_props (n / 10)).2.1 hm.symm
  · exact (digitChar_props n).2.1 (List.mem_singleton.mp hm).symm

theorem pad4_noNL (n : Nat) : '\n' ∉ pad4 n := by
  intro hm
  rcases List.mem_cons.mp hm with hm | hm
  · exact (digitChar_props (n / 1000)).2.1 hm.symm
  rcases List.mem_cons.mp hm with hm | hm
  · exact (digitChar_props (n / 100)).2.1 hm.symm
  rcases List.mem_cons.mp hm with hm | hm
  · exact (digitChar_props (n / 10)).2.1 hm.symm
  · exact (digitChar_props n).2.1 (List.mem_singleton.mp hm).symm

theorem intChars_noNL (i : Int) : '\n' ∉ intChars i := by
  unfold intChars
  by_cases h : i < 0
  · rw [if_pos h]
    intro hm
    rcases List.mem_cons.mp hm with hm | hm
    · cases hm
    · exact natCharsAux_noNL _ _ hm
  · rw [if_neg h]
    exact natCharsAux_noNL _ _

theorem fmtTs_noNL (t : DateTime) : '\n' ∉ fmtTs t := by
  unfold fmtTs
  intro hm
  rcases List.mem_cons.mp hm with hm | hm
  · exact absurd hm (by decide)
  rcases List.mem_append.mp hm with hm | hm
  swap
  · exact absurd (List.mem_singleton.mp hm) (by decide)
  rcases List.mem_append.mp hm with hm | hm
  swap
  · rcases List.mem_cons.mp hm with hm | hm
    · exact absurd hm (by decide)
    · exact pad2_noNL _ hm
  rcases List.mem_append.mp hm with hm | hm
  swap
  · rcases List.mem_cons.mp hm with hm | hm
    · exact absurd hm (by decide)
    · exact pad2_noNL _ hm
  rcases List.mem_append.mp hm with hm | hm
  swap
  · rcases List.mem_cons.mp hm with hm | hm
    · exact absurd hm (by decide)
    · exact pad2_noNL _ hm
  rcases List.mem_append.mp hm with hm | hm
  · exact pad4_noNL _ hm
  · rcases List.mem_cons.mp hm with hm | hm
    · exact absurd hm (by decide)
    · exact pad2_noNL _ hm

theorem fmtClockTs_noNL (t : DateTime) : '\n' ∉ fmtClockTs t := by
  unfold fmtClockTs
  intro hm
  rcases List.mem_cons.mp hm with hm | hm
  · exact absurd hm (by decide)
  rcases List.mem_append.mp hm with hm | hm
  swap
  · rcases List.mem_cons.mp hm with hm | hm
    · exact absurd hm (by decide)
    rcases List.mem_append.mp hm with hm | hm
    swap
    · exact absurd (List.mem_singleton.mp hm) (by decide)
    rcases List.mem_append.mp hm with hm | hm
    swap
    · rcases List.mem_cons.mp hm with hm | hm
      · exact absurd hm (by decide)
      · exact pad2_noNL _ hm
    rcases List.mem_append.mp hm with hm | hm
    · exact weekdayAbbrev_noNL _ _ _ hm
    · rcases List.mem_cons.mp hm with hm | hm
      · exact absurd hm (by decide)
      · exact pad2_noNL _ hm
  rcases List.mem_append.mp hm with hm | hm
  swap
  · rcases List.mem_cons.mp hm with hm | hm
    · exact absurd hm (by decide)
    · exact pad2_noNL _ hm
  rcases List.mem_append.mp hm with hm | hm
  · exact pad4_noNL _ hm
  · rcases List.mem_cons.mp hm with hm | hm
    · exact absurd hm (by decide)
    · exact pad2_noNL _ hm

theorem fmtDuration_noNL (s : Int) : '\n' ∉ fmtDuration s := by
  unfold fmtDuration
  intro hm
  rcases List.mem_append.mp hm with hm | hm
  · exact intChars_noNL _ hm
  rcases List.mem_cons.mp hm with hm | hm
  · cases hm
  · exact pad2_noNL _ hm

theorem clockLine_noNL (c : OrgClock) : '\n' ∉ clockToOrgString c := by
  unfold clockToOrgString
  intro hm
  rcases List.mem_append.mp hm with hm | hm
  swap
  · rcases hcd : c.duration with _ | d
    · rw [hcd] at hm
      cases hm
    · rw [hcd] at hm
      by_cases hd : d ≠ 0
      · simp only [if_pos hd] at hm
        rcases List.mem_append.mp hm with hm | hm
        · revert hm
          decide
        · exact fmtDuration_noNL _ hm
      · simp only [if_neg hd] at hm
        cases hm
  rcases List.mem_append.mp hm with hm | hm
  swap
  · rcases hce : c.end_time with _ | e
    · rw [hce] at hm
      cases hm
    · rw [hce] at hm
      exact fmtClockTs_noNL _ hm
  rcases List.mem_append.mp hm with hm | hm
  swap
  · revert hm
    decide
  rcases List.mem_append.mp hm with hm | hm
  · revert hm
    decide
  · exact fmtClockTs_noNL _ hm

/-! ## Tag-token facts -/

theorem str_ne_nil (s : String) (h : s ≠ "") : s.data ≠ [] := by
  intro hd
  apply h
  cases s with
  | mk d =>
    cases hd
    rfl

theorem map_mk_map_data (l : List String) :
    (l.map String.data).map (fun d => (⟨d⟩ : String)) = l := by
  induction l with
  | nil => rfl
  | cons x xs ih =>
    rw [List.map_cons, List.map_cons, ih]

theorem tagSplit_noTag (m : List Char) (h : tokIsTag (lastTok m) = false) :
    tagSplit m = (rstrip m, none) := by
  simp only [tagSplit]
  split_ifs with h1 h2
  · exfalso
    have ha : decide ((lastTok m).length ≥ 2) = true := decide_eq_true h1.1
    have hb : decide ((lastTok m).head? = some ':') = true := decide_eq_true h1.2.1
    have hc : decide ((lastTok m).getLast? = some ':') = true := decide_eq_true h1.2.2.1
    unfold tokIsTag at h
    rw [ha, hb, hc, h2] at h
    simp at h
  · rfl
  · rfl

theorem lastTok_ws_front (a H : List Char) (hs : strip H = H) (hne : H ≠ []) :
    lastTok (a ++ ' ' :: H) = lastTok H := by
  obtain ⟨hl, hr⟩ := strip_fix H hs
  obtain ⟨b, z, hbz, hz⟩ := rstrip_fix_last H hr hne
  have h1 : rstrip (a ++ ' ' :: H) = a ++ ' ' :: H := by
    rw [hbz, show a ++ ' ' :: (b ++ [z]) = (a ++ ' ' :: b) ++ [z] by simp,
      rstrip_last_neg _ z hz]
  unfold lastTok
  rw [h1, hr]
  have h2 : (a ++ ' ' :: H).reverse = H.reverse ++ ' ' :: a.reverse := by
    rw [List.reverse_append, List.reverse_cons, List.append_assoc]
    rfl
  rw [h2, List.takeWhile_append]
  by_cases hc : (H.reverse.takeWhile (fun c => !(isWS c))).length = H.reverse.length
  · rw [if_pos hc]
    have h3 : H.reverse.takeWhile (fun c => !(isWS c)) = H.reverse :=
      (List.takeWhile_sublist _).eq_of_length hc
    rw [show (' ' :: a.reverse).takeWhile (fun c => !(isWS c)) = [] from rfl,
      List.append_nil, h3]
  · rw [if_neg hc]

theorem tagSplit_with_tags (H : List Char) (hs : strip H = H) (hne : H ≠ [])
    (ts : List String) (hts : ts ≠ []) (htg : ts.all tagOk = true) :
    tagSplit (H ++ ' ' :: ' ' :: ':' :: (joinSep ':' (ts.map String.data) ++ [':'])) =
      (H, some ts) := by
  obtain ⟨hl, hr⟩ := strip_fix H hs
  have hJchars : ∀ c ∈ joinSep ':' (ts.map String.data),
      c = ':' ∨ ((!(isWS c)) = true ∧ c ≠ ':') := by
    intro c hc
    rcases joinSep_mem ':' c _ hc with h | ⟨l, hl2, hcl⟩
    · exact Or.inl h
    · obtain ⟨t, ht2, hlt⟩ := List.mem_map.mp hl2
      have h3 := (List.all_eq_true.mp htg) t ht2
      unfold tagOk at h3
      rw [Bool.and_eq_true] at h3
      have h4 := (List.all_eq_true.mp h3.2) c (hlt ▸ hcl)
      rw [Bool.and_eq_true, Bool.and_eq_true] at h4
      exact Or.inr ⟨h4.1.1, by simpa using h4.1.2⟩
  have hTchars : ∀ c ∈ (':' :: (joinSep ':' (ts.map String.data) ++ [':'])).reverse,
      (!(isWS c)) = true := by
    intro c hc
    rw [List.mem_reverse] at hc
    rcases List.mem_cons.mp hc with hc | hc
    · rw [hc]
      rfl
    rcases List.mem_append.mp hc with hc | hc
    · rcases hJchars c hc with h | ⟨h, _⟩
      · rw [h]
        rfl
      · exact h
    · rw [List.mem_singleton.mp hc]
      rfl
  have hm : H ++ ' ' :: ' ' :: ':' :: (joinSep ':' (ts.map String.data) ++ [':']) =
      (H ++ ' ' :: ' ' :: ':' :: joinSep ':' (ts.map String.data)) ++ [':'] := by
    simp
  have h1 : rstrip (H ++ ' ' :: ' ' :: ':' :: (joinSep ':' (ts.map String.data) ++ [':'])) =
      H ++ ' ' :: ' ' :: ':' :: (joinSep ':' (ts.map String.data) ++ [':']) := by
    rw [hm, rstrip_last_neg _ ':' rfl]
  have hrev : (H ++ ' ' :: ' ' :: ':' :: (joinSep ':' (ts.map String.data) ++ [':'])).reverse =
      (':' :: (joinSep ':' (ts.map String.data) ++ [':'])).reverse ++
        ' ' :: ' ' :: H.reverse := by
    rw [show H ++ ' ' :: ' ' :: ':' :: (joinSep ':' (ts.map String.data) ++ [':']) =
      H ++ [' ', ' '] ++ ':' :: (joinSep ':' (ts.map String.data) ++ [':']) by simp]
    rw [List.reverse_append, List.reverse_append]
    simp [List.append_assoc]
  have htok : lastTok (H ++ ' ' :: ' ' :: ':' :: (joinSep ':' (ts.map String.data) ++ [':'])) =
      ':' :: (joinSep ':' (ts.map String.data) ++ [':']) := by
    unfold lastTok
    rw [h1, hrev, takeWhile_append_head_neg _ ' ' _ hTchars rfl, List.reverse_reverse]
  have hpre : ((rstrip (H ++ ' ' :: ' ' :: ':' ::
        (joinSep ':' (ts.map String.data) ++ [':']))).reverse.dropWhile
        (fun c => !(isWS c))).reverse = H ++ [' ', ' '] := by
    rw [h1, hrev, dropWhile_append_head_neg _ ' ' _ hTchars rfl]
    rw [List.reverse_cons, List.reverse_cons, List.reverse_reverse]
    simp
  have hsegs : splitSep ':'
      (((':' :: (joinSep ':' (ts.map String.data) ++ [':'])).drop 1).dropLast) =
      ts.map String.data := by
    rw [show ((':' :: (joinSep ':' (ts.map String.data) ++ [':'])).drop 1) =
      joinSep ':' (ts.map String.data) ++ [':'] from rfl, List.dropLast_concat]
    refine splitSep_joinSep ':' (ts.map String.data) ?_ ?_
    · intro l hl2 hcl
      obtain ⟨t, ht2, hlt⟩ := List.mem_map.mp hl2
      have h3 := (List.all_eq_true.mp htg) t ht2
      unfold tagOk at h3
      rw [Bool.and_eq_true] at h3
      have h4 := (List.all_eq_true.mp h3.2) ':' (hlt ▸ hcl)
      rw [Bool.and_eq_true, Bool.and_eq_true] at h4
      have h5 := h4.1.2
      simp at h5
    · intro hmap
      exact hts (List.map_eq_nil.mp hmap)
  have hcond : (':' :: (joinSep ':' (ts.map String.data) ++ [':'])).length ≥ 2 ∧
      (':' :: (joinSep ':' (ts.map String.data) ++ [':'])).head? = some ':' ∧
      (':' :: (joinSep ':' (ts.map String.data) ++ [':'])).getLast? = some ':' ∧
      H ++ [' ', ' '] ≠ [] := by
    refine ⟨by simp, rfl, ?_, by simp⟩
    rw [show ':' :: (joinSep ':' (ts.map String.data) ++ [':']) =
      (':' :: joinSep ':' (ts.map String.data)) ++ [':'] from rfl]
    exact List.getLast?_concat _
  have hall : (ts.map String.data).all (fun s => decide (s ≠ [])) = true := by
    rw [List.all_eq_true]
    intro l hl2
    obtain ⟨t, ht2, hlt⟩ := List.mem_map.mp hl2
    have h3 := (List.all_eq_true.mp htg) t ht2
    unfold tagOk at h3
    rw [Bool.and_eq_true] at h3
    have h4 : t ≠ "" := by simpa using h3.1
    simp only [decide_eq_true_eq]
    rw [← hlt]
    exact str_ne_nil t h4
  have hps : rstrip (H ++ [' ', ' ']) = H := by
    rw [rstrip_append_ws H [' ', ' '] (by intro x hx; simp at hx; rw [hx]; rfl)]
    exact hr
  simp only [tagSplit, htok, hpre]
  rw [if_pos hcond, hsegs, if_pos hall, hps, map_mk_map_data]

/-! ## Status-keyword prefixes -/

theorem todoKw_absent (h x : List Char) (hne : h ≠ [])
    (h4 : h ≠ "TODO".data) (hph : ("TODO ".data).isPrefixOf h = false)
    (hx : x = [] ∨ ∃ r, x = ' ' :: r) :
    ("TODO ".data).isPrefixOf (h ++ x) = false := by
  cases hb : ("TODO ".data).isPrefixOf (h ++ x) with
  | false => rfl
  | true =>
    exfalso
    have hc : ("TODO ".data) <+: h ++ x := List.isPrefixOf_iff_prefix.mp hb
    rcases prefix_append_split _ h x hc with hp | ⟨hlen, hpr, hdrop⟩
    · rw [List.isPrefixOf_iff_prefix.mpr hp] at hph
      cases hph
    · have hhe : h = ("TODO ".data).take h.length := List.prefix_iff_eq_take.mp hpr
      have hl5 : h.length < 5 := by simpa using hlen
      have hl0 : h.length ≠ 0 := fun hz => hne (List.length_eq_zero.mp hz)
      have hcases : h.length = 1 ∨ h.length = 2 ∨ h.length = 3 ∨ h.length = 4 := by omega
      have hstep : ∀ r : List Char, x = ' ' :: r →
          ∀ c : Char, c ≠ ' ' → ∀ t : List Char,
          ("TODO ".data).drop h.length = c :: t → False := by
        intro r hxr c hcne t hdr
        rw [hxr, hdr] at hdrop
        exact hcne (List.cons_prefix_cons.mp hdrop).1
      have hnil : ∀ c : Char, ∀ t : List Char,
          ("TODO ".data).drop h.length = c :: t → x = [] → False := by
        intro c t hdr hxe
        rw [hxe, hdr] at hdrop
        cases List.prefix_nil.mp hdrop
      rcases hcases with hL | hL | hL | hL
      · rcases hx with hxe | ⟨r, hxr⟩
        · exact hnil 'O' "DO ".data (by rw [hL]; rfl) hxe
        · exact hstep r hxr 'O' (by decide) "DO ".data (by rw [hL]; rfl)
      · rcases hx with hxe | ⟨r, hxr⟩
        · exact hnil 'D' "O ".data (by rw [hL]; rfl) hxe
        · exact hstep r hxr 'D' (by decide) "O ".data (by rw [hL]; rfl)
      · rcases hx with hxe | ⟨r, hxr⟩
        · exact hnil 'O' " ".data (by rw [hL]; rfl) hxe
        · exact hstep r hxr 'O' (by decide) " ".data (by rw [hL]; rfl)
      · rw [hL] at hhe
        exact h4 hhe

theorem doneKw_absent (h x : List Char) (hne : h ≠ [])
    (h4 : h ≠ "DONE".data) (hph : ("DONE ".data).isPrefixOf h = false)
    (hx : x = [] ∨ ∃ r, x = ' ' :: r) :
    ("DONE ".data).isPrefixOf (h ++ x) = false := by
  cases hb : ("DONE ".data).isPrefixOf (h ++ x) with
  | false => rfl
  | true =>
    exfalso
    have hc : ("DONE ".data) <+: h ++ x := List.isPrefixOf_iff_prefix.mp hb
    rcases prefix_append_split _ h x hc with hp | ⟨hlen, hpr, hdrop⟩
    · rw [List.isPrefixOf_iff_prefix.mpr hp] at hph
      cases hph
    · have hhe : h = ("DONE ".data).take h.length := List.prefix_iff_eq_take.mp hpr
      have hl5 : h.length < 5 := by simpa using hlen
      have hl0 : h.length ≠ 0 := fun hz => hne (List.length_eq_zero.mp hz)
      have hcases : h.length = 1 ∨ h.length = 2 ∨ h.length = 3 ∨ h.length = 4 := by omega
      have hstep : ∀ r : List Char, x = ' ' :: r →
          ∀ c : Char, c ≠ ' ' → ∀ t : List Char,
          ("DONE ".data).drop h.length = c :: t → False := by
        intro r hxr c hcne t hdr
        rw [hxr, hdr] at hdrop
        exact hcne (List.cons_prefix_cons.mp hdrop).1
      have hnil : ∀ c : Char, ∀ t : List Char,
          ("DONE ".data).drop h.length = c :: t → x = [] → False := by
        intro c t hdr hxe
        rw [hxe, hdr] at hdrop
        cases List.prefix_nil.mp hdrop
      rcases hcases with hL | hL | hL | hL
      · rcases hx with hxe | ⟨r, hxr⟩
        · exact hnil 'O' "NE ".data (by rw [hL]; rfl) hxe
        · exact hstep r hxr 'O' (by decide) "NE ".data (by rw [hL]; rfl)
      · rcases hx with hxe | ⟨r, hxr⟩
        · exact hnil 'N' "E ".data (by rw [hL]; rfl) hxe
        · exact hstep r hxr 'N' (by decide) "E ".data (by rw [hL]; rfl)
      · rcases hx with hxe | ⟨r, hxr⟩
        · exact hnil 'E' " ".data (by rw [hL]; rfl) hxe
        · exact hstep r hxr 'E' (by decide) " ".data (by rw [hL]; rfl)
      · rw [hL] at hhe
        exact h4 hhe

/-! ## Heading-line round trip -/

theorem str_data_ne (s t : String) (h : s ≠ t) : s.data ≠ t.data := by
  intro hd
  apply h
  cases s with
  | mk d =>
    cases t with
    | mk e =>
      cases hd
      rfl

theorem rstrip_ws_mid (a H : List Char) (hs : strip H = H) (hne : H ≠ []) :
    rstrip (a ++ ' ' :: H) = a ++ ' ' :: H := by
  obtain ⟨hl, hr⟩ := strip_fix H hs
  obtain ⟨b, z, hbz, hz⟩ := rstrip_fix_last H hr hne
  rw [hbz, show a ++ ' ' :: (b ++ [z]) = (a ++ ' ' :: b) ++ [z] by simp,
    rstrip_last_neg _ z hz]

theorem headingOk_split (s : String) (h : headingOk s = true) :
    s ≠ "" ∧ strip s.data = s.data ∧ strNoNL s = true ∧
    ("TODO ".data).isPrefixOf s.data = false ∧ s ≠ "TODO" ∧
    ("DONE ".data).isPrefixOf s.data = false ∧ s ≠ "DONE" ∧
    ("CANCELLED".data).isPrefixOf s.data = false ∧
    tokIsTag (lastTok s.data) = false := by
  unfold headingOk at h
  simp only [Bool.and_eq_true, decide_eq_true_eq, Bool.not_eq_true'] at h
  obtain ⟨⟨⟨⟨⟨⟨⟨⟨h1, h2⟩, h3⟩, h4⟩, h5⟩, h6⟩, h7⟩, h8⟩, h9⟩ := h
  exact ⟨h1, h2, h3, h4, h5, h6, h7, h8, h9⟩

theorem entryRep_split (n : OrgNode) (h : entryRep n = true) :
    headingOk n.heading = true ∧ todoOk n.todo = true ∧ tagsOk n.tags = true ∧
    propsOk n.properties = true ∧ tsFieldOk n.timestamp = true ∧
    clocksOk n.clocks = true ∧ bodyCharsOk n.body = true ∧ 1 ≤ n.level := by
  unfold entryRep at h
  simp only [Bool.and_eq_true, decide_eq_true_eq] at h
  obtain ⟨⟨⟨⟨⟨⟨⟨h1, h2⟩, h3⟩, h4⟩, h5⟩, h6⟩, h7⟩, h8⟩ := h
  exact ⟨h1, h2, h3, h4, h5, h6, h7, h8⟩

theorem headingLineOf_shape (n : OrgNode) :
    headingLineOf n = List.replicate n.level '*' ++ ' ' ::
      (((match n.todo with
         | some td => if td ≠ "" then td.data ++ [' '] else []
         | none => []) ++ n.heading.data) ++
       (match n.tags with
        | some ts =>
          if ts ≠ [] then
            ' ' :: ' ' :: ':' :: (joinSep ':' (ts.map String.data) ++ [':'])
          else []
        | none => [])) := by
  unfold headingLineOf
  rw [List.append_assoc, List.cons_append]

theorem parseHeadingLine_stars (k : Nat) (t : List Char) :
    parseHeadingLine (List.replicate (k + 1) '*' ++ ' ' :: t) =
      (k + 1, (kwSplit (lstrip t)).1, ⟨(tagSplit (kwSplit (lstrip t)).2).1⟩,
       (tagSplit (kwSplit (lstrip t)).2).2) := by
  have hstars : (List.replicate (k + 1) '*' ++ ' ' :: t).takeWhile
      (fun c => decide (c = '*')) = List.replicate (k + 1) '*' :=
    takeWhile_append_head_neg _ _ _
      (fun x hx => by rw [List.eq_of_mem_replicate hx]; rfl) (by rfl)
  have hdrop : (List.replicate (k + 1) '*' ++ ' ' :: t).dropWhile
      (fun c => decide (c = '*')) = ' ' :: t :=
    dropWhile_append_head_neg _ _ _
      (fun x hx => by rw [List.eq_of_mem_replicate hx]; rfl) (by rfl)
  simp only [parseHeadingLine, hstars, hdrop, List.length_replicate]
  rw [show lstrip (' ' :: t) = lstrip t from
    lstrip_ws_append [' '] t (by intro x hx; simp at hx; rw [hx]; rfl)]

theorem tagSplit_heading (H : List Char) (hs : strip H = H) (hne : H ≠ [])
    (htokOk : tokIsTag (lastTok H) = false) (tags : Option (List String))
    (tp : List Char)
    (htp : tp = (match tags with
      | some ts =>
        if ts ≠ [] then
          ' ' :: ' ' :: ':' :: (joinSep ':' (ts.map String.data) ++ [':'])
        else []
      | none => []))
    (htags : tags = none ∨ ∃ ts, tags = some ts ∧ ts ≠ [] ∧ ts.all tagOk = true) :
    tagSplit (H ++ tp) = (H, tags) := by
  rcases htags with hnone | ⟨ts, hsome, htsne, htg⟩
  · subst hnone
    rw [show tp = [] from htp, List.append_nil, tagSplit_noTag H htokOk,
      (strip_fix H hs).2]
  · subst hsome
    rw [show tp = ' ' :: ' ' :: ':' :: (joinSep ':' (ts.map String.data) ++ [':']) by
      rw [htp]
      show (if ts ≠ [] then
        ' ' :: ' ' :: ':' :: (joinSep ':' (ts.map String.data) ++ [':'])
        else []) = _
      rw [if_pos htsne]]
    exact tagSplit_with_tags H hs hne ts htsne htg

/-- The rendered heading line parses back to level, keyword, heading
text and tags; composed with `OrgFile.from_file`'s `CANCELLED` heading
post-processing, the original heading and status keyword are
recovered. -/
theorem parseHeading_fields (n : OrgNode) (hrep : entryRep n = true) :
    ∃ (kw : Option String) (hstr : String),
      parseHeadingLine (headingLineOf n) = (n.level, kw, hstr, n.tags) ∧
      (if ("CANCELLED".data).isPrefixOf hstr.data then
        ((⟨strip (hstr.data.drop 9)⟩ : String), (some "CANCELLED" : Option String))
      else (hstr, kw)) = (n.heading, n.todo) := by
  obtain ⟨hhOk, htOk, htagsOk, _, _, _, _, hlev⟩ := entryRep_split n hrep
  obtain ⟨hne, hstrip, _, hT, hT4, hD, hD4, hC, htokOk⟩ := headingOk_split n.heading hhOk
  have hHne : n.heading.data ≠ [] := str_ne_nil _ hne
  obtain ⟨hl, hr⟩ := strip_fix _ hstrip
  obtain ⟨k, hk⟩ : ∃ k, n.level = k + 1 := by
    cases hv : n.level with
    | zero =>
      rw [hv] at hlev
      omega
    | succ k => exact ⟨k, rfl⟩
  have htags : n.tags = none ∨ ∃ ts, n.tags = some ts ∧ ts ≠ [] ∧ ts.all tagOk = true := by
    cases hts : n.tags with
    | none => exact Or.inl rfl
    | some ts =>
      right
      rw [hts] at htagsOk
      simp only [tagsOk, Bool.and_eq_true, decide_eq_true_eq] at htagsOk
      exact ⟨ts, rfl, htagsOk.1, htagsOk.2⟩
  have htodo4 : n.todo = none ∨ n.todo = some "TODO" ∨ n.todo = some "DONE" ∨
      n.todo = some "CANCELLED" := by
    cases hv : n.todo with
    | none => exact Or.inl rfl
    | some s =>
      rw [hv] at htOk
      simp only [todoOk, Bool.or_eq_true, decide_eq_true_eq] at htOk
      rcases htOk with (h | h) | h
      · exact Or.inr (Or.inl (by rw [h]))
      · exact Or.inr (Or.inr (Or.inl (by rw [h])))
      · exact Or.inr (Or.inr (Or.inr (by rw [h])))
  rw [headingLineOf_shape n, hk, parseHeadingLine_stars]
  generalize hTP : (match n.tags with
    | some ts =>
      if ts ≠ [] then
        ' ' :: ' ' :: ':' :: (joinSep ':' (ts.map String.data) ++ [':'])
      else []
    | none => ([] : List Char)) = TP
  have hTPshape : TP = [] ∨ ∃ r, TP = ' ' :: r := by
    rcases htags with h0 | ⟨ts, hsome, htsne, _⟩
    · rw [h0] at hTP
      exact Or.inl hTP.symm
    · rw [hsome] at hTP
      rw [show (match some ts with
        | some ts =>
          if ts ≠ [] then
            ' ' :: ' ' :: ':' :: (joinSep ':' (ts.map String.data) ++ [':'])
          else []
        | none => ([] : List Char)) =
          if ts ≠ [] then
            ' ' :: ' ' :: ':' :: (joinSep ':' (ts.map String.data) ++ [':'])
          else [] from rfl, if_pos htsne] at hTP
      exact Or.inr ⟨_, hTP.symm⟩
  rcases htodo4 with htd | htd | htd | htd
  · rw [htd]
    rw [show (match (none : Option String) with
      | some td => if td ≠ "" then td.data ++ [' '] else []
      | none => ([] : List Char)) = [] from rfl, List.nil_append]
    obtain ⟨c, r0, hcr⟩ : ∃ c r0, n.heading.data = c :: r0 := by
      cases hd : n.heading.data with
      | nil => exact absurd hd hHne
      | cons c r0 => exact ⟨c, r0, rfl⟩
    have hcws : isWS c = false := lstrip_fix_head _ c r0 hl hcr
    have hlst : lstrip (n.heading.data ++ TP) = n.heading.data ++ TP := by
      rw [hcr, List.cons_append]
      exact lstrip_cons_neg c _ hcws
    rw [hlst]
    have hkw : kwSplit (n.heading.data ++ TP) = (none, n.heading.data ++ TP) := by
      unfold kwSplit
      rw [todoKw_absent _ TP hHne (str_data_ne _ _ hT4) hT hTPshape,
        doneKw_absent _ TP hHne (str_data_ne _ _ hD4) hD hTPshape,
        if_neg (by simp), if_neg (by simp)]
    have hkw1 : (kwSplit (n.heading.data ++ TP)).1 = none := by rw [hkw]
    have hkw2 : (kwSplit (n.heading.data ++ TP)).2 = n.heading.data ++ TP := by rw [hkw]
    rw [hkw1, hkw2,
      tagSplit_heading n.heading.data hstrip hHne htokOk n.tags TP hTP.symm htags]
    refine ⟨none, n.heading, rfl, ?_⟩
    rw [if_neg (by simp [hC])]
  · rw [htd]
    rw [show (match (some "TODO" : Option String) with
      | some td => if td ≠ "" then td.data ++ [' '] else []
      | none => ([] : List Char)) = "TODO".data ++ [' '] from rfl]
    rw [show (("TODO".data ++ [' ']) ++ n.heading.data) ++ TP =
      "TODO ".data ++ (n.heading.data ++ TP) by simp]
    have hlst : lstrip ("TODO ".data ++ (n.heading.data ++ TP)) =
        "TODO ".data ++ (n.heading.data ++ TP) := by
      rw [show "TODO ".data ++ (n.heading.data ++ TP) =
        'T' :: ("ODO ".data ++ (n.heading.data ++ TP)) from rfl]
      exact lstrip_cons_neg 'T' _ rfl
    rw [hlst]
    have hkw : kwSplit ("TODO ".data ++ (n.heading.data ++ TP)) =
        (some "TODO", n.heading.data ++ TP) := by
      unfold kwSplit
      rw [if_pos (List.isPrefixOf_iff_prefix.mpr (List.prefix_append _ _))]
      rw [show (5 : Nat) = ("TODO ".data).length from rfl, List.drop_left]
    have hkw1 : (kwSplit ("TODO ".data ++ (n.heading.data ++ TP))).1 = some "TODO" := by
      rw [hkw]
    have hkw2 : (kwSplit ("TODO ".data ++ (n.heading.data ++ TP))).2 =
        n.heading.data ++ TP := by
      rw [hkw]
    rw [hkw1, hkw2,
      tagSplit_heading n.heading.data hstrip hHne htokOk n.tags TP hTP.symm htags]
    refine ⟨some "TODO", n.heading, rfl, ?_⟩
    rw [if_neg (by simp [hC])]
  · rw [htd]
    rw [show (match (some "DONE" : Option String) with
      | some td => if td ≠ "" then td.data ++ [' '] else []
      | none => ([] : List Char)) = "DONE".data ++ [' '] from rfl]
    rw [show (("DONE".data ++ [' ']) ++ n.heading.data) ++ TP =
      "DONE ".data ++ (n.heading.data ++ TP) by simp]
    have hlst : lstrip ("DONE ".data ++ (n.heading.data ++ TP)) =
        "DONE ".data ++ (n.heading.data ++ TP) := by
      rw [show "DONE ".data ++ (n.heading.data ++ TP) =
        'D' :: ("ONE ".data ++ (n.heading.data ++ TP)) from rfl]
      exact lstrip_cons_neg 'D' _ rfl
    rw [hlst]
    have hkw : kwSplit ("DONE ".data ++ (n.heading.data ++ TP)) =
        (some "DONE", n.heading.data ++ TP) := by
      unfold kwSplit
      rw [show ("TODO ".data).isPrefixOf ("DONE ".data ++ (n.heading.data ++ TP)) =
        false from rfl, if_neg (by simp)]
      rw [if_pos (List.isPrefixOf_iff_prefix.mpr (List.prefix_append _ _))]
      rw [show (5 : Nat) = ("DONE ".data).length from rfl, List.drop_left]
    have hkw1 : (kwSplit ("DONE ".data ++ (n.heading.data ++ TP))).1 = some "DONE" := by
      rw [hkw]
    have hkw2 : (kwSplit ("DONE ".data ++ (n.heading.data ++ TP))).2 =
        n.heading.data ++ TP := by
      rw [hkw]
    rw [hkw1, hkw2,
      tagSplit_heading n.heading.data hstrip hHne htokOk n.tags TP hTP.symm htags]
    refine ⟨some "DONE", n.heading, rfl, ?_⟩
    rw [if_neg (by simp [hC])]
  · rw [htd]
    rw [show (match (some "CANCELLED" : Option String) with
      | some td => if td ≠ "" then td.data ++ [' '] else []
      | none => ([] : List Char)) = "CANCELLED".data ++ [' '] from rfl]
    rw [show (("CANCELLED".data ++ [' ']) ++ n.heading.data) ++ TP =
      ("CANCELLED".data ++ ' ' :: n.heading.data) ++ TP by simp]
    have hHs : strip ("CANCELLED".data ++ ' ' :: n.heading.data) =
        "CANCELLED".data ++ ' ' :: n.heading.data := by
      show lstrip (rstrip _) = _
      rw [rstrip_ws_mid _ _ hstrip hHne]
      rw [show "CANCELLED".data ++ ' ' :: n.heading.data =
        'C' :: ("ANCELLED".data ++ ' ' :: n.heading.data) from rfl]
      exact lstrip_cons_neg 'C' _ rfl
    have hHne2 : ("CANCELLED".data ++ ' ' :: n.heading.data) ≠ [] := by simp
    have hHtok : tokIsTag (lastTok ("CANCELLED".data ++ ' ' :: n.heading.data)) = false := by
      rw [lastTok_ws_front _ _ hstrip hHne]
      exact htokOk
    have hlst : lstrip (("CANCELLED".data ++ ' ' :: n.heading.data) ++ TP) =
        ("CANCELLED".data ++ ' ' :: n.heading.data) ++ TP := by
      rw [show ("CANCELLED".data ++ ' ' :: n.heading.data) ++ TP =
        'C' :: (("ANCELLED".data ++ ' ' :: n.heading.data) ++ TP) from rfl]
      exact lstrip_cons_neg 'C' _ rfl
    rw [hlst]
    have hkw : kwSplit (("CANCELLED".data ++ ' ' :: n.heading.data) ++ TP) =
        (none, ("CANCELLED".data ++ ' ' :: n.heading.data) ++ TP) := by
      unfold kwSplit
      rw [show ("TODO ".data).isPrefixOf
          (("CANCELLED".data ++ ' ' :: n.heading.data) ++ TP) = false from rfl,
        show ("DONE ".data).isPrefixOf
          (("CANCELLED".data ++ ' ' :: n.heading.data) ++ TP) = false from rfl,
        if_neg (by simp), if_neg (by simp)]
    have hkw1 : (kwSplit (("CANCELLED".data ++ ' ' :: n.heading.data) ++ TP)).1 = none := by
      rw [hkw]
    have hkw2 : (kwSplit (("CANCELLED".data ++ ' ' :: n.heading.data) ++ TP)).2 =
        ("CANCELLED".data ++ ' ' :: n.heading.data) ++ TP := by
      rw [hkw]
    rw [hkw1, hkw2,
      tagSplit_heading _ hHs hHne2 hHtok n.tags TP hTP.symm htags]
    refine ⟨none, ⟨"CANCELLED".data ++ ' ' :: n.heading.data⟩, rfl, ?_⟩
    have hcond : ("CANCELLED".data).isPrefixOf
        ((⟨"CANCELLED".data ++ ' ' :: n.heading.data⟩ : String)).data = true :=
      List.isPrefixOf_iff_prefix.mpr (List.prefix_append _ _)
    rw [if_pos hcond]
    rw [show ((⟨"CANCELLED".data ++ ' ' :: n.heading.data⟩ : String)).data =
      "CANCELLED".data ++ ' ' :: n.heading.data from rfl]
    rw [show (9 : Nat) = ("CANCELLED".data).length from rfl, List.drop_left,
      strip_stripped_cons_space _ hstrip]

/-! ## Drawer cutting -/

theorem cutDrawer_absent (marker : List Char) (ls : List (List Char))
    (h : ∀ l ∈ ls, l ≠ marker) : cutDrawer marker ls = (none, ls) := by
  have hd : ls.dropWhile (fun l => decide (l ≠ marker)) = [] := by
    refine dropWhile_all_nil ls ?_
    intro l hl
    exact decide_eq_true (h l hl)
  simp only [cutDrawer, hd]

theorem cutDrawer_found (marker : List Char) (pre region rest : List (List Char))
    (hpre : ∀ l ∈ pre, l ≠ marker)
    (hreg : ∀ l ∈ region, l ≠ ":END:".data) :
    cutDrawer marker (pre ++ marker :: (region ++ ":END:".data :: rest)) =
      (some region, pre ++ rest) := by
  have hp : ∀ l ∈ pre, (fun l => decide (l ≠ marker)) l = true :=
    fun l hl => decide_eq_true (hpre l hl)
  have hm : (fun l => decide (l ≠ marker)) marker = false := by simp
  have htake : (pre ++ marker :: (region ++ ":END:".data :: rest)).takeWhile
      (fun l => decide (l ≠ marker)) = pre :=
    takeWhile_append_head_neg _ _ _ hp hm
  have hdrop : (pre ++ marker :: (region ++ ":END:".data :: rest)).dropWhile
      (fun l => decide (l ≠ marker)) = marker :: (region ++ ":END:".data :: rest) :=
    dropWhile_append_head_neg _ _ _ hp hm
  have hreg2 : ∀ l ∈ region, (fun l => decide (l ≠ ":END:".data)) l = true :=
    fun l hl => decide_eq_true (hreg l hl)
  have hend : (fun l => decide (l ≠ ":END:".data)) (":END:".data) = false := by simp
  have htake2 : (region ++ ":END:".data :: rest).takeWhile
      (fun l => decide (l ≠ ":END:".data)) = region :=
    takeWhile_append_head_neg _ _ _ hreg2 hend
  have hdrop2 : (region ++ ":END:".data :: rest).dropWhile
      (fun l => decide (l ≠ ":END:".data)) = ":END:".data :: rest :=
    dropWhile_append_head_neg _ _ _ hreg2 hend
  simp only [cutDrawer, htake, hdrop, htake2, hdrop2, List.tail_cons]

theorem propLine_ne_marker (p : String × String) (hk : keyOk p.1 = true)
    (w : List Char) (hw : w.dropWhile (fun c => decide (c ≠ ':')) = [':']) :
    propLineOf p ≠ ':' :: w := by
  intro he
  obtain ⟨hkne, hku, hkc⟩ : p.1 ≠ "" ∧ upperStr p.1 = p.1 ∧
      ∀ c ∈ p.1.data, c ≠ ':' := by
    unfold keyOk at hk
    simp only [Bool.and_eq_true, decide_eq_true_eq, List.all_eq_true] at hk
    exact ⟨hk.1.1, hk.1.2, fun c hc => (hk.2 c hc).1.1⟩
  unfold propLineOf at he
  rw [show (upperStr p.1).data = p.1.data from congrArg String.data hku] at he
  injection he with _ h2
  have h3 := congrArg (List.dropWhile (fun c => decide (c ≠ ':'))) h2
  rw [hw, dropWhile_append_head_neg p.1.data ':' (' ' :: p.2.data)
    (fun x hx => decide_eq_true (hkc x hx)) (by simp)] at h3
  injection h3 with _ h4
  cases h4

theorem ne_of_head_ne (x y : Char) (a b : List Char) (hxy : x ≠ y) :
    x :: a ≠ y :: b := by
  intro he
  injection he with h1 _
  exact hxy h1

theorem fmtTs_head (t : DateTime) : ∃ r, fmtTs t = '<' :: r := ⟨_, rfl⟩

theorem clockLine_head (c : OrgClock) : ∃ r, clockToOrgString c = 'C' :: r := ⟨_, rfl⟩

theorem propLineOf_head (p : String × String) : ∃ r, propLineOf p = ':' :: r := ⟨_, rfl⟩

theorem isHeadingLine_nil : isHeadingLine [] = false := rfl

theorem isHeadingLine_lt (r : List Char) : isHeadingLine ('<' :: r) = false := rfl

theorem isHeadingLine_colon (r : List Char) : isHeadingLine (':' :: r) = false := rfl

theorem isHeadingLine_C (r : List Char) : isHeadingLine ('C' :: r) = false := rfl

theorem isHeadingLine_space (r : List Char) : isHeadingLine (' ' :: r) = false := rfl

theorem isHeadingLine_stars_space (k : Nat) (t : List Char) :
    isHeadingLine (List.replicate (k + 1) '*' ++ ' ' :: t) = true := by
  have hd : (List.replicate (k + 1) '*' ++ ' ' :: t).dropWhile
      (fun c => decide (c = '*')) = ' ' :: t :=
    dropWhile_append_head_neg _ _ _
      (fun x hx => by rw [List.eq_of_mem_replicate hx]; rfl) (by rfl)
  rw [List.replicate_succ, List.cons_append]
  show decide ((('*' :: (List.replicate k '*' ++ ' ' :: t)).dropWhile
    (fun c => decide (c = '*'))).head? = some ' ') = true
  rw [← List.cons_append, ← List.replicate_succ, hd]
  rfl

/-! ## Timestamp-scan facts -/

theorem strip_replicate_space (lvl : Nat) : strip (List.replicate lvl ' ') = [] := by
  show lstrip (rstrip _) = []
  rw [rstrip_ws_nil _ (fun x hx => by rw [List.eq_of_mem_replicate hx]; rfl)]
  rfl

theorem strip_indent_strip (lvl : Nat) (line : List Char) :
    strip (List.replicate lvl ' ' ++ strip line) = strip line := by
  by_cases hse : strip line = []
  · rw [hse, List.append_nil, strip_replicate_space]
  · exact strip_indent _ _ (fun x hx => by rw [List.eq_of_mem_replicate hx]; rfl)
      (strip_idem line)

theorem strip_fmtTs (t : DateTime) : strip (fmtTs t) = fmtTs t := by
  have hshape : fmtTs t = '<' :: ((pad4 t.year ++ '-' :: pad2 t.month ++
      '-' :: pad2 t.day ++ ' ' :: pad2 t.hour ++ ':' :: pad2 t.minute) ++ ['>']) := by
    unfold fmtTs
    simp [List.append_assoc]
  rw [hshape]
  show lstrip (rstrip _) = _
  rw [show '<' :: ((pad4 t.year ++ '-' :: pad2 t.month ++ '-' :: pad2 t.day ++
      ' ' :: pad2 t.hour ++ ':' :: pad2 t.minute) ++ ['>']) =
    ('<' :: (pad4 t.year ++ '-' :: pad2 t.month ++ '-' :: pad2 t.day ++
      ' ' :: pad2 t.hour ++ ':' :: pad2 t.minute)) ++ ['>'] from rfl,
    rstrip_last_neg _ '>' rfl]
  exact lstrip_cons_neg '<' _ rfl

/-! ## Per-entry line inventory -/

theorem tsLines_mem (n : OrgNode) (l : List Char) (hl : l ∈ tsLinesOf n) :
    ∃ t, n.timestamp = some t ∧ l = fmtTs t := by
  unfold tsLinesOf at hl
  rcases ht : n.timestamp with _ | t
  · rw [ht] at hl
    cases hl
  · rw [ht] at hl
    exact ⟨t, rfl, List.mem_singleton.mp hl⟩

theorem bodyLines_mem (n : OrgNode) (l : List Char) (hl : l ∈ bodyLinesOf n) :
    ∃ b line, n.body = some b ∧ line ∈ pySplitlines b ∧
      l = List.replicate n.level ' ' ++ strip line ∧
      (tsCore (strip line)).isSome = false := by
  unfold bodyLinesOf at hl
  rcases hb : n.body with _ | b
  · rw [hb] at hl
    cases hl
  · rw [hb] at hl
    by_cases hbe : b ≠ ""
    · simp only [if_pos hbe] at hl
      obtain ⟨line, hline, hsome⟩ := List.mem_filterMap.mp hl
      by_cases hts : (tsCore (strip line)).isSome = true
      · rw [if_pos hts] at hsome
        cases hsome
      · rw [if_neg hts] at hsome
        injection hsome with hsome
        exact ⟨b, line, rfl, hline, hsome.symm, by simpa using hts⟩
    · simp only [if_neg hbe] at hl
      cases hl

theorem bodyLines_head (n : OrgNode) (hlev : 1 ≤ n.level) (l : List Char)
    (hl : l ∈ bodyLinesOf n) : ∃ r, l = ' ' :: r := by
  obtain ⟨b, line, _, _, hline, _⟩ := bodyLines_mem n l hl
  obtain ⟨k, hk⟩ : ∃ k, n.level = k + 1 := by
    cases hv : n.level with
    | zero =>
      rw [hv] at hlev
      omega
    | succ k => exact ⟨k, rfl⟩
  rw [hline, hk, List.replicate_succ, List.cons_append]
  exact ⟨_, rfl⟩

theorem propBlock_mem (n : OrgNode) (l : List Char) (hl : l ∈ propBlockOf n) :
    l = ":PROPERTIES:".data ∨ l = ":END:".data ∨
    ∃ ps p, n.properties = some ps ∧ p ∈ ps ∧ l = propLineOf p := by
  unfold propBlockOf at hl
  rcases hp : n.properties with _ | ps
  · rw [hp] at hl
    cases hl
  · rw [hp] at hl
    by_cases hpe : ps ≠ []
    · simp only [if_pos hpe] at hl
      rcases List.mem_append.mp hl with hl | hl
      · rcases List.mem_append.mp hl with hl | hl
        · exact Or.inl (List.mem_singleton.mp hl)
        · obtain ⟨p, hpm, hpl⟩ := List.mem_map.mp hl
          exact Or.inr (Or.inr ⟨ps, p, rfl, hpm, hpl.symm⟩)
      · exact Or.inr (Or.inl (List.mem_singleton.mp hl))
    · simp only [if_neg hpe] at hl
      cases hl

theorem propsOk_key (n : OrgNode) (hrep : entryRep n = true) (ps : List (String × String))
    (hp : n.properties = some ps) (p : String × String) (hpm : p ∈ ps) :
    keyOk p.1 = true ∧ strNoNL p.2 = true := by
  obtain ⟨_, _, _, hpOk, _, _, _, _⟩ := entryRep_split n hrep
  rw [hp] at hpOk
  simp only [propsOk, Bool.and_eq_true, decide_eq_true_eq, List.all_eq_true] at hpOk
  exact hpOk.2 p hpm

theorem propBlock_ne_marker (n : OrgNode) (hrep : entryRep n = true)
    (w : List Char) (hw : w.dropWhile (fun c => decide (c ≠ ':')) = [':'])
    (hw1 : ":PROPERTIES:".data ≠ ':' :: w) (hw2 : ":END:".data ≠ ':' :: w) :
    ∀ l ∈ propBlockOf n, l ≠ ':' :: w := by
  intro l hl
  rcases propBlock_mem n l hl with h | h | ⟨ps, p, hps, hpm, hpl⟩
  · rw [h]
    exact hw1
  · rw [h]
    exact hw2
  · rw [hpl]
    exact propLine_ne_marker p (propsOk_key n hrep ps hps p hpm).1 w hw

/-! ## Drawer stages of the entry parse -/

def clockRegion (n : OrgNode) : Option (List (List Char)) :=
  match n.clocks with
  | some cs => if cs ≠ [] then some (cs.map clockToOrgString) else none
  | none => none

def propRegion (n : OrgNode) : Option (List (List Char)) :=
  match n.properties with
  | some ps => if ps ≠ [] then some (ps.map propLineOf) else none
  | none => none

theorem tsLines_ne_colon (n : OrgNode) (w : List Char) :
    ∀ l ∈ tsLinesOf n, l ≠ ':' :: w := by
  intro l hl
  obtain ⟨t, _, hlf⟩ := tsLines_mem n l hl
  obtain ⟨r, hr⟩ := fmtTs_head t
  rw [hlf, hr]
  exact ne_of_head_ne _ _ _ _ (by decide)

theorem cut_logbook (n : OrgNode) (hrep : entryRep n = true) (tail : List (List Char))
    (htail : ∀ l ∈ tail, l ≠ ":LOGBOOK:".data) :
    cutDrawer ":LOGBOOK:".data (tsLinesOf n ++ (clockBlockOf n ++ tail)) =
      (clockRegion n, tsLinesOf n ++ tail) := by
  rcases hc : n.clocks with _ | cs
  · rw [show clockBlockOf n = [] by unfold clockBlockOf; rw [hc], List.nil_append,
      show clockRegion n = none by unfold clockRegion; rw [hc]]
    refine cutDrawer_absent _ _ ?_
    intro l hl
    rcases List.mem_append.mp hl with hl | hl
    · exact tsLines_ne_colon n _ l hl
    · exact htail l hl
  · by_cases hce : cs ≠ []
    · rw [show clockBlockOf n =
        [":LOGBOOK:".data] ++ cs.map clockToOrgString ++ [":END:".data] by
          unfold clockBlockOf; rw [hc]; simp [if_pos hce],
        show clockRegion n = some (cs.map clockToOrgString) by
          unfold clockRegion; rw [hc]; simp [if_pos hce]]
      rw [show tsLinesOf n ++
          (([":LOGBOOK:".data] ++ cs.map clockToOrgString ++ [":END:".data]) ++ tail) =
        tsLinesOf n ++ ":LOGBOOK:".data ::
          (cs.map clockToOrgString ++ ":END:".data :: tail) by simp]
      refine cutDrawer_found _ _ _ _ (tsLines_ne_colon n _) ?_
      intro l hlm
      obtain ⟨c0, _, hlc⟩ := List.mem_map.mp hlm
      obtain ⟨r, hr⟩ := clockLine_head c0
      rw [← hlc, hr]
      exact ne_of_head_ne _ _ _ _ (by decide)
    · exfalso
      obtain ⟨_, _, _, _, _, hclOk, _, _⟩ := entryRep_split n hrep
      rw [hc] at hclOk
      simp only [clocksOk, Bool.and_eq_true, decide_eq_true_eq] at hclOk
      exact hce hclOk.1

theorem cut_props (n : OrgNode) (hrep : entryRep n = true) (tail : List (List Char))
    (htail : ∀ l ∈ tail, l ≠ ":PROPERTIES:".data) :
    cutDrawer ":PROPERTIES:".data (tsLinesOf n ++ (propBlockOf n ++ tail)) =
      (propRegion n, tsLinesOf n ++ tail) := by
  rcases hp : n.properties with _ | ps
  · rw [show propBlockOf n = [] by unfold propBlockOf; rw [hp], List.nil_append,
      show propRegion n = none by unfold propRegion; rw [hp]]
    refine cutDrawer_absent _ _ ?_
    intro l hl
    rcases List.mem_append.mp hl with hl | hl
    · exact tsLines_ne_colon n _ l hl
    · exact htail l hl
  · by_cases hpe : ps ≠ []
    · rw [show propBlockOf n =
        [":PROPERTIES:".data] ++ ps.map propLineOf ++ [":END:".data] by
          unfold propBlockOf; rw [hp]; simp [if_pos hpe],
        show propRegion n = some (ps.map propLineOf) by
          unfold propRegion; rw [hp]; simp [if_pos hpe]]
      rw [show tsLinesOf n ++
          (([":PROPERTIES:".data] ++ ps.map propLineOf ++ [":END:".data]) ++ tail) =
        tsLinesOf n ++ ":PROPERTIES:".data ::
          (ps.map propLineOf ++ ":END:".data :: tail) by simp]
      refine cutDrawer_found _ _ _ _ (tsLines_ne_colon n _) ?_
      intro l hlm
      obtain ⟨p, hpm, hpl⟩ := List.mem_map.mp hlm
      rw [← hpl]
      exact propLine_ne_marker p (propsOk_key n hrep ps hp p hpm).1 "END:".data rfl
    · exfalso
      obtain ⟨_, _, _, hpOk, _, _, _, _⟩ := entryRep_split n hrep
      rw [hp] at hpOk
      simp only [propsOk, Bool.and_eq_true, decide_eq_true_eq] at hpOk
      exact hpe hpOk.1

theorem find_ts (n : OrgNode) (hrep : entryRep n = true) (tail : List (List Char))
    (htail : ∀ l ∈ tail, tsCore (strip l) = none) :
    (tsLinesOf n ++ tail).findSome? (fun l => tsCore (strip l)) = n.timestamp := by
  rcases ht : n.timestamp with _ | t
  · rw [show tsLinesOf n = [] by unfold tsLinesOf; rw [ht], List.nil_append]
    exact List.findSome?_eq_none_iff.mpr htail
  · rw [show tsLinesOf n = [fmtTs t] by unfold tsLinesOf; rw [ht],
      show [fmtTs t] ++ tail = fmtTs t :: tail from rfl, fs_cons]
    have hdt : dtOk t = true := by
      obtain ⟨_, _, _, _, htOk, _, _, _⟩ := entryRep_split n hrep
      rw [ht] at htOk
      simpa [tsFieldOk] using htOk
    obtain ⟨h1, h2, h3, h4, h5, h6⟩ := dtOk_bounds t hdt
    rw [strip_fmtTs, tsCore_fmtTs t h1 h2 h3 h4 h5 h6]

theorem buildClocks_of_closed (cs : List OrgClock)
    (h : ∀ c ∈ cs, clockOk c = true) :
    buildClocks (cs.map (fun c => (c.start_time, c.end_time))) = .ok cs := by
  induction cs with
  | nil => rfl
  | cons c cs ih =>
    have hcok := h c (List.mem_cons_self _ _)
    obtain ⟨e, he⟩ : ∃ e, c.end_time = some e := by
      rcases hce : c.end_time with _ | e
      · exfalso
        unfold clockOk at hcok
        rw [hce] at hcok
        simp at hcok
      · exact ⟨e, rfl⟩
    have hmk : OrgClock.make c.start_time (some e) = c := by
      unfold clockOk at hcok
      simp only [Bool.and_eq_true, decide_eq_true_eq] at hcok
      cases c with
      | mk st en du =>
        simp only at hcok he
        unfold OrgClock.make
        rw [← he, hcok.2]
    rw [List.map_cons]
    rw [show ((c.start_time, c.end_time) ::
        cs.map (fun c => (c.start_time, c.end_time))) =
      ((c.start_time, some e) :: cs.map (fun c => (c.start_time, c.end_time))) by
        rw [he]]
    show (match buildClocks (cs.map (fun c => (c.start_time, c.end_time))) with
      | .ok l => Except.ok (OrgClock.make c.start_time (some e) :: l)
      | .error u => Except.error u) = Except.ok (c :: cs)
    rw [ih (fun x hx => h x (List.mem_cons_of_mem _ hx))]
    rw [hmk]

theorem clocksE_from_region (n : OrgNode) (hrep : entryRep n = true) :
    (match clockRegion n with
     | some region =>
       if region.filterMap parseClockLine ≠ [] then
         match buildClocks (region.filterMap parseClockLine) with
         | .ok built => Except.ok (some built)
         | .error u => Except.error u
       else Except.ok none
     | none => Except.ok none) =
      (Except.ok n.clocks : Except Unit (Option (List OrgClock))) := by
  rcases hc : n.clocks with _ | cs
  · rw [show clockRegion n = none by unfold clockRegion; rw [hc]]
  · obtain ⟨_, _, _, _, _, hclOk, _, _⟩ := entryRep_split n hrep
    rw [hc] at hclOk
    simp only [clocksOk, Bool.and_eq_true, decide_eq_true_eq, List.all_eq_true] at hclOk
    obtain ⟨hcne, hall⟩ := hclOk
    rw [show clockRegion n = some (cs.map clockToOrgString) by
      unfold clockRegion; rw [hc]; simp [if_pos hcne]]
    have hmk : ∀ c ∈ cs, OrgClock.make c.start_time c.end_time = c := by
      intro c hcm
      have hcok := hall c hcm
      unfold clockOk at hcok
      simp only [Bool.and_eq_true, decide_eq_true_eq] at hcok
      cases c with
      | mk st en du =>
        simp only at hcok
        unfold OrgClock.make
        rw [hcok.2]
    have hfm : (cs.map clockToOrgString).filterMap parseClockLine =
        cs.map (fun c => (c.start_time, c.end_time)) := by
      refine filterMap_all_some _ _ _ _ ?_
      intro c hcm
      have hcok := hall c hcm
      unfold clockOk at hcok
      simp only [Bool.and_eq_true, decide_eq_true_eq] at hcok
      have hst : dtOk c.start_time = true := hcok.1.1
      have hend : ∀ x, c.end_time = some x → dtOk x = true := by
        intro x hx
        have h2 := hcok.1.2
        rw [hx] at h2
        exact h2
      have h3 := parseClockLine_round c.start_time c.end_time hst hend
      rw [hmk c hcm] at h3
      exact h3
    simp only [hfm]
    rw [if_pos (fun hcontra => hcne (List.map_eq_nil.mp hcontra))]
    rw [buildClocks_of_closed cs hall]

theorem props_from_region (n : OrgNode) (hrep : entryRep n = true) :
    (propRegion n).map (fun region => region.filterMap parsePropLine) = n.properties := by
  rcases hp : n.properties with _ | ps
  · rw [show propRegion n = none by unfold propRegion; rw [hp]]
    rfl
  · obtain ⟨_, _, _, hpOk, _, _, _, _⟩ := entryRep_split n hrep
    rw [hp] at hpOk
    simp only [propsOk, Bool.and_eq_true, decide_eq_true_eq, List.all_eq_true] at hpOk
    obtain ⟨hpne, hall⟩ := hpOk
    rw [show propRegion n = some (ps.map propLineOf) by
      unfold propRegion; rw [hp]; simp [if_pos hpne]]
    have hfm : (ps.map propLineOf).filterMap parsePropLine = ps.map (fun p => p) := by
      refine filterMap_all_some _ _ _ _ ?_
      intro p hpm
      have h2 := hall p hpm
      have hk := h2.1
      unfold keyOk at hk
      simp only [Bool.and_eq_true, decide_eq_true_eq, List.all_eq_true] at hk
      have h3 := parsePropLine_round p.1 p.2 (str_ne_nil _ hk.1.1) hk.1.2
        (fun hc => absurd rfl (hk.2 ':' hc).1.1)
      exact h3
    rw [Option.map_some', hfm, List.map_id']

/-- One rendered entry block (with an optional trailing empty line from
the file-final newline) parses back WITHOUT raising — its clocks all
carry end times — to the same heading, status keyword, tags,
properties, timestamp and clocks. -/
theorem parseEntryNode_fields (n : OrgNode) (extra : List (List Char))
    (hrep : entryRep n = true) (hextra : extra = [] ∨ extra = [[]]) :
    ∃ m, parseEntryNode ((structLinesOf n ++ bodyLinesOf n) ++ extra) =
        Except.ok m ∧
      claimedFields m = claimedFields n := by
  obtain ⟨hhOk, _, _, _, _, _, _, hlev⟩ := entryRep_split n hrep
  obtain ⟨hne, _, _, _, _, _, _, hCC, _⟩ := headingOk_split n.heading hhOk
  have hextraF : ∀ l ∈ extra, l = [] := by
    rcases hextra with h | h
    · rw [h]
      intro l hl
      cases hl
    · rw [h]
      intro l hl
      exact List.mem_singleton.mp hl
  have hbodyts : ∀ l ∈ bodyLinesOf n ++ extra, tsCore (strip l) = none := by
    intro l hl
    rcases List.mem_append.mp hl with hl | hl
    · obtain ⟨b, line, _, _, hline, hts⟩ := bodyLines_mem n l hl
      rw [hline, strip_indent_strip]
      cases hv : tsCore (strip line) with
      | none => rfl
      | some t =>
        rw [hv] at hts
        cases hts
    · rw [hextraF l hl]
      rfl
  have hbodymk : ∀ l ∈ bodyLinesOf n ++ extra, ∀ w : List Char, l ≠ ':' :: w := by
    intro l hl w
    rcases List.mem_append.mp hl with hl | hl
    · obtain ⟨r, hr⟩ := bodyLines_head n hlev l hl
      rw [hr]
      exact ne_of_head_ne _ _ _ _ (by decide)
    · rw [hextraF l hl]
      exact fun hcon => List.noConfusion hcon
  have hshape : (structLinesOf n ++ bodyLinesOf n) ++ extra =
      headingLineOf n :: (tsLinesOf n ++ (clockBlockOf n ++
        (propBlockOf n ++ (bodyLinesOf n ++ extra)))) := by
    unfold structLinesOf
    rw [if_pos hne]
    simp [List.append_assoc]
  rw [hshape]
  simp only [parseEntryNode]
  have hcut1 : cutDrawer ":LOGBOOK:".data (tsLinesOf n ++ (clockBlockOf n ++
      (propBlockOf n ++ (bodyLinesOf n ++ extra)))) =
      (clockRegion n, tsLinesOf n ++ (propBlockOf n ++ (bodyLinesOf n ++ extra))) := by
    refine cut_logbook n hrep _ ?_
    intro l hl
    rcases List.mem_append.mp hl with hl | hl
    · exact propBlock_ne_marker n hrep "LOGBOOK:".data rfl (by decide) (by decide) l hl
    · exact hbodymk l hl _
  have hcut1a : (cutDrawer ":LOGBOOK:".data (tsLinesOf n ++ (clockBlockOf n ++
      (propBlockOf n ++ (bodyLinesOf n ++ extra))))).1 = clockRegion n := by
    rw [hcut1]
  have hcut1b : (cutDrawer ":LOGBOOK:".data (tsLinesOf n ++ (clockBlockOf n ++
      (propBlockOf n ++ (bodyLinesOf n ++ extra))))).2 =
      tsLinesOf n ++ (propBlockOf n ++ (bodyLinesOf n ++ extra)) := by
    rw [hcut1]
  rw [hcut1a, hcut1b]
  have hcut2 : cutDrawer ":PROPERTIES:".data (tsLinesOf n ++ (propBlockOf n ++
      (bodyLinesOf n ++ extra))) =
      (propRegion n, tsLinesOf n ++ (bodyLinesOf n ++ extra)) := by
    refine cut_props n hrep _ ?_
    intro l hl
    exact hbodymk l hl _
  have hcut2a : (cutDrawer ":PROPERTIES:".data (tsLinesOf n ++ (propBlockOf n ++
      (bodyLinesOf n ++ extra)))).1 = propRegion n := by
    rw [hcut2]
  have hcut2b : (cutDrawer ":PROPERTIES:".data (tsLinesOf n ++ (propBlockOf n ++
      (bodyLinesOf n ++ extra)))).2 = tsLinesOf n ++ (bodyLinesOf n ++ extra) := by
    rw [hcut2]
  rw [hcut2a, hcut2b]
  rw [find_ts n hrep _ hbodyts]
  rw [clocksE_from_region n hrep]
  rw [props_from_region n hrep]
  obtain ⟨kw, hstr, hph, hpost⟩ := parseHeading_fields n hrep
  rw [hph]
  simp only []
  refine ⟨_, rfl, ?_⟩
  simp only [claimedFields]
  by_cases hcp : ("CANCELLED".data).isPrefixOf hstr.data = true
  · rw [if_pos hcp] at hpost
    simp only [Prod.mk.injEq] at hpost
    simp only [if_pos hcp, hpost.1, hpost.2]
  · rw [if_neg hcp] at hpost
    simp only [Prod.mk.injEq] at hpost
    simp only [hpost.1, hpost.2]
    rw [if_neg (by simp [hCC])]

/-! ## Rendered entry blocks: line structure -/

theorem todoOk_elim (o : Option String) (h : todoOk o = true) :
    o = none ∨ o = some "TODO" ∨ o = some "DONE" ∨ o = some "CANCELLED" := by
  cases hv : o with
  | none => exact Or.inl rfl
  | some s =>
    rw [hv] at h
    simp only [todoOk, Bool.or_eq_true, decide_eq_true_eq] at h
    rcases h with (h | h) | h
    · exact Or.inr (Or.inl (by rw [h]))
    · exact Or.inr (Or.inr (Or.inl (by rw [h])))
    · exact Or.inr (Or.inr (Or.inr (by rw [h])))

theorem clockBlock_mem (n : OrgNode) (l : List Char) (hl : l ∈ clockBlockOf n) :
    l = ":LOGBOOK:".data ∨ l = ":END:".data ∨ ∃ c : OrgClock, l = clockToOrgString c := by
  unfold clockBlockOf at hl
  rcases hc : n.clocks with _ | cs
  · rw [hc] at hl
    cases hl
  · rw [hc] at hl
    by_cases hce : cs ≠ []
    · simp only [if_pos hce] at hl
      rcases List.mem_append.mp hl with hl | hl
      · rcases List.mem_append.mp hl with hl | hl
        · exact Or.inl (List.mem_singleton.mp hl)
        · obtain ⟨c, _, hcl⟩ := List.mem_map.mp hl
          exact Or.inr (Or.inr ⟨c, hcl.symm⟩)
      · exact Or.inr (Or.inl (List.mem_singleton.mp hl))
    · simp only [if_neg hce] at hl
      cases hl

theorem pySplitlines_noNL (s : String) (l : List Char) (hl : l ∈ pySplitlines s) :
    '\n' ∉ l := by
  unfold pySplitlines at hl
  cases hd : s.data with
  | nil =>
    rw [hd] at hl
    cases hl
  | cons x xs =>
    rw [hd] at hl
    by_cases hlast : (x :: xs).getLast? = some '\n'
    · simp only [if_pos hlast] at hl
      exact splitSep_mem_sepFree '\n' (x :: xs) l (List.dropLast_subset _ hl)
    · simp only [if_neg hlast] at hl
      exact splitSep_mem_sepFree '\n' (x :: xs) l hl

theorem bodyLines_noNL (n : OrgNode) (l : List Char) (hl : l ∈ bodyLinesOf n) :
    '\n' ∉ l := by
  obtain ⟨b, line, _, hlm, hline, _⟩ := bodyLines_mem n l hl
  rw [hline]
  intro hm
  rcases List.mem_append.mp hm with hm | hm
  · exact absurd (List.eq_of_mem_replicate hm) (by decide)
  · exact pySplitlines_noNL b line hlm (strip_subset line '\n' hm)

theorem propLine_noNL (p : String × String) (hk : keyOk p.1 = true)
    (hv : strNoNL p.2 = true) : '\n' ∉ propLineOf p := by
  unfold keyOk at hk
  simp only [Bool.and_eq_true, decide_eq_true_eq, List.all_eq_true] at hk
  unfold propLineOf
  rw [show (upperStr p.1).data = p.1.data from congrArg String.data hk.1.2]
  intro hm
  rcases List.mem_cons.mp hm with hm | hm
  · exact absurd hm (by decide)
  rcases List.mem_append.mp hm with hm | hm
  · exact absurd rfl (hk.2 '\n' hm).1.2
  rcases List.mem_cons.mp hm with hm | hm
  · exact absurd hm (by decide)
  rcases List.mem_cons.mp hm with hm | hm
  · exact absurd hm (by decide)
  · unfold strNoNL at hv
    simp only [Bool.and_eq_true, decide_eq_true_eq, List.all_eq_true] at hv
    exact (hv '\n' hm).1 rfl

theorem headingLine_noNL (n : OrgNode) (hrep : entryRep n = true) :
    '\n' ∉ headingLineOf n := by
  obtain ⟨hhOk, htOk, htagsOk, _, _, _, _, _⟩ := entryRep_split n hrep
  obtain ⟨_, _, hnoNL, _, _, _, _, _, _⟩ := headingOk_split n.heading hhOk
  unfold headingLineOf
  intro hm
  rcases List.mem_append.mp hm with hm | hm
  · rcases List.mem_append.mp hm with hm | hm
    · exact absurd (List.eq_of_mem_replicate hm) (by decide)
    rcases List.mem_cons.mp hm with hm | hm
    · exact absurd hm (by decide)
    rcases List.mem_append.mp hm with hm | hm
    · rcases todoOk_elim n.todo htOk with htd | htd | htd | htd <;> rw [htd] at hm
      · cases hm
      · revert hm
        decide
      · revert hm
        decide
      · revert hm
        decide
    · unfold strNoNL at hnoNL
      simp only [Bool.and_eq_true, decide_eq_true_eq, List.all_eq_true] at hnoNL
      exact (hnoNL '\n' hm).1 rfl
  · rcases hts : n.tags with _ | ts
    · rw [hts] at hm
      cases hm
    · rw [hts] at hm
      rw [hts] at htagsOk
      simp only [tagsOk, Bool.and_eq_true, decide_eq_true_eq, List.all_eq_true] at htagsOk
      by_cases htse : ts ≠ []
      · simp only [if_pos htse] at hm
        rcases List.mem_cons.mp hm with hm | hm
        · exact absurd hm (by decide)
        rcases List.mem_cons.mp hm with hm | hm
        · exact absurd hm (by decide)
        rcases List.mem_cons.mp hm with hm | hm
        · exact absurd hm (by decide)
        rcases List.mem_append.mp hm with hm | hm
        · rcases joinSep_mem ':' '\n' _ hm with h | ⟨l2, hl2, hml⟩
          · exact absurd h (by decide)
          · obtain ⟨t2, ht2, hlt⟩ := List.mem_map.mp hl2
            have h3 := htagsOk.2 t2 ht2
            unfold tagOk at h3
            simp only [Bool.and_eq_true, decide_eq_true_eq, List.all_eq_true] at h3
            exact (h3.2 '\n' (hlt ▸ hml)).2 rfl
        · exact absurd (List.mem_singleton.mp hm) (by decide)
      · simp only [if_neg htse] at hm
        cases hm

theorem nodeLines_noNL (n : OrgNode) (hrep : entryRep n = true) :
    ∀ l ∈ structLinesOf n ++ bodyLinesOf n, '\n' ∉ l := by
  intro l hl
  rcases List.mem_append.mp hl with hl | hl
  swap
  · exact bodyLines_noNL n l hl
  unfold structLinesOf at hl
  rcases List.mem_append.mp hl with hl | hl
  swap
  · rcases propBlock_mem n l hl with h | h | ⟨ps, p, hps, hpm, hpl⟩
    · rw [h]
      decide
    · rw [h]
      decide
    · rw [hpl]
      have hkv := propsOk_key n hrep ps hps p hpm
      exact propLine_noNL p hkv.1 hkv.2
  by_cases hne : n.heading ≠ ""
  · rw [if_pos hne] at hl
    rcases List.mem_append.mp hl with hl | hl
    swap
    · rcases clockBlock_mem n l hl with h | h | ⟨c, hcl⟩
      · rw [h]
        decide
      · rw [h]
        decide
      · rw [hcl]
        exact clockLine_noNL c
    rcases List.mem_append.mp hl with hl | hl
    · rw [List.mem_singleton.mp hl]
      exact headingLine_noNL n hrep
    · obtain ⟨t, _, hlf⟩ := tsLines_mem n l hl
      rw [hlf]
      exact fmtTs_noNL t
  · rw [if_neg hne] at hl
    cases hl

/-! ## Rendering equations -/

theorem join_cons2 {α : Type} (x : List α) (xs : List (List α)) :
    (x :: xs).join = x ++ xs.join := rfl

theorem join_nil2 {α : Type} : ([] : List (List α)).join = [] := rfl

theorem to_org_string_eq (n : OrgNode) (hglue : entryGlue n = true) :
    to_org_string n =
      joinSep '\n' (structLinesOf n ++ bodyLinesOf n) ++ ['\n'] := by
  have hb : bodyLinesOf n ≠ [] := by simpa [entryGlue] using hglue
  unfold to_org_string nodeElems
  rw [if_pos hb]
  cases hs : structLinesOf n with
  | nil =>
    rw [List.nil_append, List.nil_append]
    rfl
  | cons s ss =>
    rw [joinSep_append '\n' (s :: ss)
      [joinSep '\n' (bodyLinesOf n) ++ ['\n']] (by simp) (by simp)]
    rw [joinSep_append '\n' (s :: ss) (bodyLinesOf n) (by simp) hb]
    rw [show joinSep '\n' [joinSep '\n' (bodyLinesOf n) ++ ['\n']] =
      joinSep '\n' (bodyLinesOf n) ++ ['\n'] from rfl]
    simp [List.append_assoc]

theorem root_renders_empty (r : OrgNode) (h : rootEmptyRender r = true) :
    to_org_string r = [] := by
  unfold rootEmptyRender at h
  rw [Bool.and_eq_true, Bool.and_eq_true] at h
  obtain ⟨⟨hh, hp⟩, hb⟩ := h
  have hh2 : r.heading = "" := by simpa using hh
  have hsl : structLinesOf r = [] := by
    unfold structLinesOf propBlockOf
    rw [if_neg (by simp [hh2]), List.nil_append]
    rcases hpp : r.properties with _ | ps
    · rfl
    · rw [hpp] at hp
      have hps : ps = [] := by simpa using hp
      simp [hps]
  have hbl : bodyLinesOf r = [] := by
    unfold bodyLinesOf
    rcases hbb : r.body with _ | b
    · rfl
    · rw [hbb] at hb
      have hbs : b = "" := by simpa using hb
      simp [hbs]
  unfold to_org_string nodeElems
  rw [hsl, hbl]
  simp [joinSep]

theorem splitSep_renderList (cs : List OrgNode)
    (hrep : ∀ n ∈ cs, entryRep n = true) (hglue : ∀ n ∈ cs, entryGlue n = true) :
    splitSep '\n' ((cs.map to_org_string).join) =
      (cs.map (fun n => structLinesOf n ++ bodyLinesOf n)).join ++ [[]] := by
  induction cs with
  | nil => rfl
  | cons c cs ih =>
    have hbne : structLinesOf c ++ bodyLinesOf c ≠ [] := by
      intro hcon
      have hb : bodyLinesOf c ≠ [] := by
        simpa [entryGlue] using hglue c (List.mem_cons_self _ _)
      exact hb (List.append_eq_nil.mp hcon).2
    rw [List.map_cons, join_cons2, List.map_cons, join_cons2]
    rw [to_org_string_eq c (hglue c (List.mem_cons_self _ _))]
    rw [show (joinSep '\n' (structLinesOf c ++ bodyLinesOf c) ++ ['\n']) ++
        (cs.map to_org_string).join =
      joinSep '\n' (structLinesOf c ++ bodyLinesOf c) ++
        '\n' :: (cs.map to_org_string).join by simp]
    rw [splitSep_append_cons]
    rw [splitSep_joinSep '\n' _
      (nodeLines_noNL c (hrep c (List.mem_cons_self _ _))) hbne]
    rw [ih (fun n hn => hrep n (List.mem_cons_of_mem _ hn))
      (fun n hn => hglue n (List.mem_cons_of_mem _ hn))]
    simp [List.append_assoc]

/-! ## Grouping the lines into entries -/

def withLast (blocks : List (List (List Char))) (part : List (List Char)) :
    List (List (List Char)) :=
  match blocks with
  | [] => []
  | [b] => [b ++ part]
  | b :: b2 :: bs => b :: withLast (b2 :: bs) part

theorem foldr_group_nonheading (t : List (List Char))
    (acc : List (List Char) × List (List (List Char)))
    (ht : ∀ l ∈ t, isHeadingLine l = false) :
    t.foldr groupStep acc = (t ++ acc.1, acc.2) := by
  induction t with
  | nil => rfl
  | cons l t ih =>
    rw [List.foldr_cons, ih (fun x hx => ht x (List.mem_cons_of_mem _ hx))]
    unfold groupStep
    rw [if_neg (by simp [ht l (List.mem_cons_self _ _)])]
    rfl

theorem foldr_group_block (h : List Char) (t : List (List Char))
    (hh : isHeadingLine h = true) (ht : ∀ l ∈ t, isHeadingLine l = false)
    (acc : List (List Char) × List (List (List Char))) :
    (h :: t).foldr groupStep acc = ([], ((h :: t) ++ acc.1) :: acc.2) := by
  rw [List.foldr_cons, foldr_group_nonheading t acc ht]
  unfold groupStep
  rw [if_pos hh]
  rfl

theorem foldr_group_blocks (blocks : List (List (List Char))) (hbne : blocks ≠ [])
    (hwf : ∀ b ∈ blocks, ∃ h t, b = h :: t ∧ isHeadingLine h = true ∧
      ∀ l ∈ t, isHeadingLine l = false)
    (part : List (List Char)) (gs : List (List (List Char))) :
    blocks.join.foldr groupStep (part, gs) = ([], withLast blocks part ++ gs) := by
  induction blocks with
  | nil => cases hbne rfl
  | cons b bs ih =>
    obtain ⟨h, t, hb, hh, ht⟩ := hwf b (List.mem_cons_self _ _)
    cases bs with
    | nil =>
      rw [join_cons2, join_nil2, List.append_nil, hb,
        foldr_group_block h t hh ht (part, gs)]
      rfl
    | cons b2 bs2 =>
      rw [join_cons2, List.foldr_append,
        ih (by simp) (fun x hx => hwf x (List.mem_cons_of_mem _ hx)), hb,
        foldr_group_block h t hh ht ([], withLast (b2 :: bs2) part ++ gs),
        List.append_nil]
      rfl

theorem groupEntries_blocks (blocks : List (List (List Char))) (hbne : blocks ≠ [])
    (hwf : ∀ b ∈ blocks, ∃ h t, b = h :: t ∧ isHeadingLine h = true ∧
      ∀ l ∈ t, isHeadingLine l = false) :
    groupEntries (blocks.join ++ [[]]) = withLast blocks [[]] := by
  unfold groupEntries
  rw [List.foldr_append,
    show ([[]] : List (List Char)).foldr groupStep ([], []) = ([[]], []) from rfl,
    foldr_group_blocks blocks hbne hwf [[]] [], List.append_nil]

theorem nodeLines_wf (n : OrgNode) (hrep : entryRep n = true) :
    ∃ t, structLinesOf n ++ bodyLinesOf n = headingLineOf n :: t ∧
      isHeadingLine (headingLineOf n) = true ∧
      ∀ l ∈ t, isHeadingLine l = false := by
  obtain ⟨hhOk, _, _, _, _, _, _, hlev⟩ := entryRep_split n hrep
  obtain ⟨hne, _, _, _, _, _, _, _, _⟩ := headingOk_split n.heading hhOk
  obtain ⟨k, hk⟩ : ∃ k, n.level = k + 1 := by
    cases hv : n.level with
    | zero =>
      rw [hv] at hlev
      omega
    | succ k => exact ⟨k, rfl⟩
  refine ⟨tsLinesOf n ++ (clockBlockOf n ++ (propBlockOf n ++ bodyLinesOf n)), ?_, ?_, ?_⟩
  · unfold structLinesOf
    rw [if_pos hne]
    simp [List.append_assoc]
  · rw [headingLineOf_shape n, hk]
    exact isHeadingLine_stars_space k _
  · intro l hl
    rcases List.mem_append.mp hl with hl | hl
    · obtain ⟨t2, _, hlf⟩ := tsLines_mem n l hl
      obtain ⟨r, hr⟩ := fmtTs_head t2
      rw [hlf, hr]
      exact isHeadingLine_lt r
    rcases List.mem_append.mp hl with hl | hl
    · rcases clockBlock_mem n l hl with h | h | ⟨c, hcl⟩
      · rw [h]
        rfl
      · rw [h]
        rfl
      · obtain ⟨r, hr⟩ := clockLine_head c
        rw [hcl, hr]
        exact isHeadingLine_C r
    rcases List.mem_append.mp hl with hl | hl
    · rcases propBlock_mem n l hl with h | h | ⟨ps, p, hps, hpm, hpl⟩
      · rw [h]
        rfl
      · rw [h]
        rfl
      · obtain ⟨r, hr⟩ := propLineOf_head p
        rw [hpl, hr]
        exact isHeadingLine_colon r
    · obtain ⟨r, hr⟩ := bodyLines_head n hlev l hl
      rw [hr]
      exact isHeadingLine_space r

theorem parseEntriesList_cons (g : List (List Char)) (gs : List (List (List Char))) :
    parseEntriesList (g :: gs) =
      (match parseEntryNode g with
       | .ok n =>
         match parseEntriesList gs with
         | .ok ns => Except.ok (n :: ns)
         | .error u => Except.error u
       | .error u => Except.error u) := rfl

theorem parseEntries_withLast (cs : List OrgNode)
    (hrep : ∀ n ∈ cs, entryRep n = true) :
    ∃ ms, parseEntriesList
        (withLast (cs.map (fun n => structLinesOf n ++ bodyLinesOf n)) [[]]) =
        Except.ok ms ∧
      ms.map claimedFields = cs.map claimedFields := by
  induction cs with
  | nil => exact ⟨[], rfl, rfl⟩
  | cons c cs ih =>
    cases cs with
    | nil =>
      obtain ⟨m, hm, hmf⟩ :=
        parseEntryNode_fields c [[]] (hrep c (List.mem_cons_self _ _)) (Or.inr rfl)
      refine ⟨[m], ?_, ?_⟩
      · rw [List.map_cons, List.map_nil,
          show withLast [structLinesOf c ++ bodyLinesOf c] [[]] =
            [(structLinesOf c ++ bodyLinesOf c) ++ [[]]] from rfl,
          parseEntriesList_cons, hm]
        rfl
      · rw [List.map_cons, List.map_nil, List.map_cons, List.map_nil, hmf]
    | cons c2 cs2 =>
      obtain ⟨m, hm0, hmf⟩ :=
        parseEntryNode_fields c [] (hrep c (List.mem_cons_self _ _)) (Or.inl rfl)
      rw [List.append_nil] at hm0
      obtain ⟨ms, hms, hmsf⟩ := ih (fun n hn => hrep n (List.mem_cons_of_mem _ hn))
      refine ⟨m :: ms, ?_, ?_⟩
      · rw [List.map_cons,
          show withLast ((structLinesOf c ++ bodyLinesOf c) ::
              ((c2 :: cs2).map (fun n => structLinesOf n ++ bodyLinesOf n))) [[]] =
            (structLinesOf c ++ bodyLinesOf c) ::
              withLast ((c2 :: cs2).map
                (fun n => structLinesOf n ++ bodyLinesOf n)) [[]] by
            rw [List.map_cons]
            rfl,
          parseEntriesList_cons, hm0, hms]
      · rw [List.map_cons, List.map_cons, hmf, hmsf]

/-- Full-file round trip on the claimed fields, for files with an
empty-rendering root and newline-terminated representable entries:
`OrgFile.from_file` on the rendered text succeeds (no clock lacks an end
time, so the ValueError path is not taken) and reproduces the claimed
fields of every entry. -/
theorem roundTrip_ok (f : OrgFile)
    (hroot : rootEmptyRender f.root = true)
    (hrep : ∀ n ∈ f.children, entryRep n = true)
    (hglue : ∀ n ∈ f.children, entryGlue n = true) :
    ∃ g, parseOrgDoc (to_file f) = Except.ok g ∧
      g.children.map claimedFields = f.children.map claimedFields := by
  unfold parseOrgDoc to_file
  rw [show ((⟨to_org_string f.root ++ (f.children.map to_org_string).join⟩ : String)).data =
    to_org_string f.root ++ (f.children.map to_org_string).join from rfl]
  rw [root_renders_empty f.root hroot, List.nil_append]
  unfold parseOrgNodes
  cases hcs : f.children with
  | nil => exact ⟨_, rfl, rfl⟩
  | cons c cs =>
    rw [hcs] at hrep hglue
    rw [splitSep_renderList (c :: cs) hrep hglue]
    have hwf : ∀ b ∈ (c :: cs).map (fun n => structLinesOf n ++ bodyLinesOf n),
        ∃ h t, b = h :: t ∧ isHeadingLine h = true ∧
          ∀ l ∈ t, isHeadingLine l = false := by
      intro b hb
      obtain ⟨n, hn, hbn⟩ := List.mem_map.mp hb
      obtain ⟨t, hnl, hhead, htail⟩ := nodeLines_wf n (hrep n hn)
      exact ⟨headingLineOf n, t, by rw [← hbn, hnl], hhead, htail⟩
    obtain ⟨tc, hnlc, hheadc, _⟩ := nodeLines_wf c (hrep c (List.mem_cons_self _ _))
    have hjoin : ((c :: cs).map (fun n => structLinesOf n ++ bodyLinesOf n)).join ++ [[]] =
        headingLineOf c :: (tc ++
          ((cs.map (fun n => structLinesOf n ++ bodyLinesOf n)).join ++ [[]])) := by
      rw [List.map_cons, join_cons2, hnlc]
      simp [List.append_assoc]
    rw [hjoin]
    simp only []
    rw [show (headingLineOf c :: (tc ++
        ((cs.map (fun n => structLinesOf n ++ bodyLinesOf n)).join ++ [[]]))).dropWhile
        (fun l => !(isHeadingLine l)) =
      headingLineOf c :: (tc ++
        ((cs.map (fun n => structLinesOf n ++ bodyLinesOf n)).join ++ [[]])) from
      dropWhile_cons_neg _ _ (by simp [hheadc])]
    rw [← hjoin]
    rw [groupEntries_blocks _ (by simp) hwf]
    obtain ⟨ms, hms, hmsf⟩ := parseEntries_withLast (c :: cs) hrep
    rw [hms]
    simp only []
    exact ⟨_, rfl, hmsf⟩

/-! ## C8: behaviour at a missing target file -/

/-- C8: counterexample — when the target outline file is missing,
`OrgFile.from_file` raises (`load` opens the path unconditionally and no
caller catches the error), so the run does NOT start from an empty
document: there is no `OrgFile` result at all. -/
theorem C8_counterexample :
    from_file none = Except.error () ∧
    from_file none ≠ Except.ok ⟨{ heading := "", level := 0 }, []⟩ :=
  ⟨rfl, fun h => Except.noConfusion h⟩

/-- C8 (amended): `OrgFile.from_file` parses the file whenever it
exists, and fails (uncaught exception, no empty-document fallback) when
it does not. -/
theorem C8_missing_file_fails :
    from_file none = Except.error () ∧
    ∀ s : String, from_file (some s) = Except.ok (parseOrgText s) :=
  ⟨rfl, fun _ => rfl⟩

/-! ## C1: the render/parse round trip -/

/-- Two representable entries whose renderings do not end in a newline:
`to_file` glues them into the single line `* A* B`. -/
def cexFile : OrgFile :=
  { root := { heading := "", level := 0 },
    children := [{ heading := "A" }, { heading := "B" }] }

set_option synthInstance.maxSize 1024

/-- C1: counterexample — a file of two entries, each carrying only
representable fields (plain headings `A` and `B`), renders to `* A* B`
(`to_file` writes the blocks with no separator and a body-less block has
no trailing newline), which parses back as ONE entry headed `A* B`: the
claimed per-entry field preservation fails. -/
theorem C1_counterexample :
    cexFile.children.all entryRep = true ∧
    (parseOrgText (to_file cexFile)).children.map claimedFields ≠
      cexFile.children.map claimedFields := by
  constructor
  · decide
  · decide

/-- C1 (amended): for every OrgFile whose root renders to nothing and
whose entries carry only representable fields — including that every
clock carries an end time, since `OrgFile.from_file` raises ValueError
on an end-less clock (orgnode.py line 169 feeds the truthy string
`str(None)` into strptime) — AND render to newline-terminated blocks (a
surviving body line), `OrgFile.from_file` on the rendered file succeeds
and reproduces every entry's heading, status keyword, tags, properties,
timestamp and clock set, in order. -/
theorem C1_round_trip (f : OrgFile)
    (hroot : rootEmptyRender f.root = true)
    (hrep : f.children.all entryRep = true)
    (hglue : f.children.all entryGlue = true) :
    ∃ g, parseOrgDoc (to_file f) = Except.ok g ∧
      g.children.map claimedFields = f.children.map claimedFields :=
  roundTrip_ok f hroot (List.all_eq_true.mp hrep) (List.all_eq_true.mp hglue)

def w1a : OrgNode :=
  { heading := "Weekly sync", todo := some "TODO",
    tags := some ["meeting", "work"],
    properties := some [("MEETING_ID", "42"), ("LOCATION", "Room 4")],
    body := some "agenda follows",
    timestamp := some ⟨2024, 12, 10, 9, 0, 0⟩,
    clocks := some
      [OrgClock.make ⟨2024, 12, 10, 4, 30, 0⟩ (some ⟨2024, 12, 10, 6, 30, 0⟩),
       OrgClock.make ⟨2024, 12, 11, 4, 30, 0⟩ (some ⟨2024, 12, 11, 5, 0, 0⟩)],
    level := 2 }

def w1b : OrgNode :=
  { heading := "1:1 with Sam", todo := some "CANCELLED",
    body := some "skip this week" }

def w1c : OrgNode :=
  { heading := "Coffee chat", body := some "informal" }

def w1file : OrgFile :=
  { root := { heading := "", level := 0 }, children := [w1a, w1b, w1c] }

theorem C1_round_trip_witness :
    (rootEmptyRender w1file.root = true ∧ w1file.children.all entryRep = true ∧
      w1file.children.all entryGlue = true) ∧
    ∃ g, parseOrgDoc (to_file w1file) = Except.ok g ∧
      g.children.map claimedFields = w1file.children.map claimedFields :=
  ⟨⟨by decide, by decide, by decide⟩,
    C1_round_trip w1file (by decide) (by decide) (by decide)⟩

end OlCal
